import Mathlib

/-!
# Cartographer: a verified shallow embedding

Shallow embedding of the `cartographer` dependency grapher:

* `src/resolver.js` (the class implementation): node-style module
  resolution — extension probing (`loadFile`), package-manifest entry
  lookup (`getEntryPoint` / `loadDirectory`), and the upward
  module-directory walk (`resolveModule`).
* `src/required.js` / `src/ast-walker.js`: the `require`-call scanner and
  the breadth-first AST walk it relies on.
* `src/dependencies.js`: the recursive dependency grapher.

External collaborators (the esprima parser, `fs`, `JSON.parse`,
`path.resolve`) are modelled explicitly: the filesystem and the JSON
parser as finite tables in an environment record, POSIX `path.resolve`
as a total function on strings, and the parser's output as an explicit
AST value handed to the scanner.  Asynchronous continuation-passing code
is embedded in direct style with explicit state passing; the single
shared caches (`Resolver.cache`, `Dependencies.cache`) are fields of the
threaded state.
-/

namespace Cartographer

/-! ## Association-list helpers (JS plain objects used as maps) -/

/-- Lookup in an association list (first match wins), mirroring JS
property access `obj[key]` returning `undefined` when absent. -/
def alookup {α β : Type} [DecidableEq α] : List (α × β) → α → Option β
  | [], _ => none
  | (k, v) :: l, a => if k = a then some v else alookup l a

/-- Update the value stored under key `p` (all entries with that key),
leaving other entries untouched.  Models in-place mutation of one
property of a JS object. -/
def updAssoc {α β : Type} [DecidableEq α] : List (α × β) → α → (β → β) → List (α × β)
  | [], _, _ => []
  | (k, v) :: l, p, g => (if k = p then (k, g v) else (k, v)) :: updAssoc l p g

/-! ## JS string and path primitives

`path.resolve`, `String.prototype.substring`, `String.prototype.lastIndexOf`
and `path.dirname` are host-language primitives used by the source;
they are modelled here for POSIX paths (`path.sep = "/"`). -/

/-- JS `String.prototype.substring(a, b)`: both indices are clamped to
`[0, length]` and swapped when out of order. -/
def jsSubstring (s : String) (a b : Nat) : String :=
  let n := s.length
  let a' := min a n
  let b' := min b n
  String.mk ((s.toList.drop (min a' b')).take (max a' b' - min a' b'))

/-- Everything strictly before the last `/` of the character list
(empty when there is no `/`): this is exactly JS
`s.substring(0, s.lastIndexOf('/'))`, whose result is empty when
`lastIndexOf` returns `-1`. -/
def truncBaseList : List Char → List Char
  | [] => []
  | c :: l => if '/' ∈ l then c :: truncBaseList l else []

/-- Model of `base.substring(0, base.lastIndexOf(path.sep))`: drop the last path
segment (empty result when `base` has no separator). -/
def truncBase (base : String) : String :=
  String.mk (truncBaseList base.toList)

/-- Model of `path.dirname` (as exposed by vinyl's `file.dirname`) for a POSIX
file path. -/
def jsDirname (p : String) : String :=
  if '/' ∈ p.toList then
    let t := truncBaseList p.toList
    if t = [] then "/" else String.mk t
  else "."

/-- Does the first list begin with the second?  (Char-list level
`String.prototype.startsWith`; core `String.startsWith` works on byte
positions, which the kernel cannot evaluate.) -/
def listBegins {α : Type} [DecidableEq α] : List α → List α → Bool
  | _, [] => true
  | [], _ :: _ => false
  | a :: l, b :: m => a = b && listBegins l m

/-- JS `s.startsWith(pre)`. -/
def strBegins (s pre : String) : Bool := listBegins s.toList pre.toList

/-- JS `s.endsWith(suf)` (equivalently `s[s.length-1] == c` for the
one-character suffixes the source tests). -/
def strEnds (s suf : String) : Bool := listBegins s.toList.reverse suf.toList.reverse

/-- Split a character list at every `/`. -/
def splitSlash : List Char → List (List Char)
  | [] => [[]]
  | c :: t =>
    match splitSlash t with
    | [] => [[]]
    | seg :: segs => if c = '/' then [] :: seg :: segs else (c :: seg) :: segs

/-- The `/`-separated segments of a path string. -/
def pathSegsOf (s : String) : List String := (splitSlash s.toList).map String.mk

/-- Join segments with `/`. -/
def intercalateSlash : List String → String
  | [] => ""
  | [s] => s
  | s :: rest => s ++ "/" ++ intercalateSlash rest

/-- One normalization pass of POSIX path segments: empty and `.`
segments are dropped, `..` pops the previous segment. -/
def normalizeSegs (segs : List String) : List String :=
  segs.foldl
    (fun acc s =>
      if s = "" ∨ s = "." then acc
      else if s = ".." then acc.dropLast
      else acc ++ [s]) []

/-- Node's `path.resolve(base, spec)` for an absolute POSIX `base`:
an absolute `spec` wins, otherwise `spec` is joined onto `base`, and
the result is normalized (trailing slashes are dropped). -/
def pathResolve (base spec : String) : String :=
  let p := if strBegins spec "/" then spec else base ++ "/" ++ spec
  "/" ++ intercalateSlash (normalizeSegs (pathSegsOf p))

/-- Node's three-argument `path.resolve(base, mid, spec)`
(right-to-left, here specialised to an absolute `base`). -/
def pathResolve3 (base mid spec : String) : String :=
  pathResolve (pathResolve base mid) spec

/-! ## Resolver data model (`src/resolver.js`, class implementation) -/

/-- A JSON value as produced by `JSON.parse` of a package manifest.
Only the shapes the resolver inspects are represented: strings, nested
objects, JSON `null`, and the JS `undefined` produced by indexing a
missing property. -/
inductive JVal where
  | jstr (s : String)
  | jobj (fields : List (String × JVal))
  | jnull
  | jsUndefined
deriving Repr

/-- JS truthiness of the `JVal` shapes above (`""` is falsy). -/
def JVal.truthy : JVal → Bool
  | .jstr s => s ≠ ""
  | .jobj _ => true
  | .jnull => false
  | .jsUndefined => false

/-- JS property access `v[key]` on a parsed manifest: object lookup,
`undefined` otherwise. -/
def JVal.index : JVal → String → JVal
  | .jobj fields, k => (alookup fields k).getD .jsUndefined
  | _, _ => .jsUndefined

/-- Coercion of a truthy manifest level to the entry-point string the
code hands to `path.resolve`: strings are used as-is; a truthy
non-string would be stringified by JS (`path.resolve` would in fact
throw on it — it never occurs for well-formed manifests). -/
def JVal.entryString : JVal → String
  | .jstr s => s
  | .jobj _ => "[object Object]"
  | .jnull => "null"
  | .jsUndefined => "undefined"

/-- One entry of the `mains` option: either a single manifest key or an
ordered key path (the class constructor default is `[['main']]`). -/
inductive MainSpec where
  | single (key : String)
  | seq (keys : List String)
deriving Repr

/-- Normalization `if(!(main instanceof Array)) main = [main]` of a main
spec to a key list. -/
def MainSpec.keyList : MainSpec → List String
  | .single k => [k]
  | .seq ks => ks

/-- The resolver configuration (`this.options` of the class
constructor). -/
structure ResolverOptions where
  extensions : List String
  modules : List String
  packages : List String
  mains : List MainSpec
  index : String

/-- The class constructor's defaults. -/
def defaultOptions : ResolverOptions :=
  { extensions := ["", ".js"]
    modules := ["node_modules"]
    packages := ["package.json"]
    mains := [.seq ["main"]]
    index := "index" }

/-- The resolver's external collaborators: `fs.readFile` as a finite
table from absolute path to contents (`none` = read error, e.g.
ENOENT), and `JSON.parse` as a finite table from raw text to parsed
value (`none` = parse exception). -/
structure REnv where
  fs : List (String × String)
  jsonTable : List (String × JVal)

/-- A vinyl `File` record as created by `loadFile`
(`new File({path, contents})`).  Identity is the absolute path. -/
structure FileRec where
  path : String
  contents : String
deriving DecidableEq, Repr

/-- Model of `Resolver.cache`: the process-wide path-keyed file cache, a map
from absolute candidate path to its `FileRec`. -/
abbrev RCache := List (String × FileRec)

/-- Outcome of one resolver continuation `cb(err, file)`:
`cb(null, file)`, `cb(errString)`, or the bare `cb()` miss. -/
inductive ROut where
  | found (f : FileRec)
  | failed (err : String)
  | missing
deriving DecidableEq, Repr

/-- The extension loop of `Resolver.loadFile`, as recursion over the
extensions still to try (the source counts an index `ext` upward
through `this.options.extensions`): a cache hit or successful read is
returned (populating the cache), a read error advances to the next
extension, and exhaustion is the missing outcome. -/
def loadFileGo (env : REnv) (fileName : String) :
    List String → RCache → RCache × ROut
  | [], cache => (cache, .missing)
  | e :: exts, cache =>
    let realName := fileName ++ e
    match alookup cache realName with
    | some f => (cache, .found f)
    | none =>
      match alookup env.fs realName with
      | none => loadFileGo env fileName exts cache
      | some contents =>
        let f : FileRec := ⟨realName, contents⟩
        (cache ++ [(realName, f)], .found f)

/-- Entry point `Resolver.loadFile`, starting at extension index `ext`. -/
def loadFile (o : ResolverOptions) (env : REnv) (fileName : String) (ext : Nat)
    (cache : RCache) : RCache × ROut :=
  loadFileGo env fileName (o.extensions.drop ext) cache

/-- Model of `Resolver.getEntryPoint`: walk each configured main spec into the
parsed manifest; the first spec reaching a truthy level wins, else the
configured index name. -/
def getEntryPoint (o : ResolverOptions) (packageData : JVal) : String :=
  go o.mains
where
  /-- The descent loop `for(let level of main) { packageLevel = packageLevel[level];
  if(!packageLevel) break; }` -/
  descend : JVal → List String → JVal
  | v, [] => v
  | v, k :: ks =>
    let v' := v.index k
    if v'.truthy then descend v' ks else v'
  /-- iterate over the configured `mains` in order -/
  go : List MainSpec → String
  | [] => o.index
  | m :: rest =>
    let level := descend packageData m.keyList
    if level.truthy then level.entryString else go rest

/-- The manifest loop of `Resolver.loadDirectory`, as recursion over the
manifest filenames still to try (the source counts an index
`packageFile` upward through `this.options.packages`): exhaustion
falls back to `<directory>/<index>` as a file; a read failure advances
to the next manifest; a JSON parse failure is fatal with the error
string `"Package file is incorrectly formatted: <path>"`; a parsed
manifest's entry point is tried as a file, then as `<entry>/<index>`,
and on a further miss the source recurses with index
`this.options.packages.length` — skipping every remaining manifest and
immediately taking the exhausted branch, which is written out here
to keep the recursion structural. -/
def loadDirectoryGo (o : ResolverOptions) (env : REnv) (directory : String) :
    List String → RCache → RCache × ROut
  | [], cache => loadFileGo env (pathResolve directory o.index) o.extensions cache
  | pkgName :: pkgs, cache =>
    let packagePath := pathResolve directory pkgName
    match alookup env.fs packagePath with
    | none => loadDirectoryGo o env directory pkgs cache
    | some packageData =>
      match alookup env.jsonTable packageData with
      | none => (cache, .failed ("Package file is incorrectly formatted: " ++ packagePath))
      | some pkg =>
        let entry := pathResolve directory (getEntryPoint o pkg)
        match loadFileGo env entry o.extensions cache with
        | (c1, .found f) => (c1, .found f)
        | (c1, _) =>
          let entryIndex := pathResolve entry o.index
          match loadFileGo env entryIndex o.extensions c1 with
          | (c2, .found f) => (c2, .found f)
          | (c2, _) => loadFileGo env (pathResolve directory o.index) o.extensions c2

/-- Entry point `Resolver.loadDirectory`, starting at manifest index
`packageFile`. -/
def loadDirectory (o : ResolverOptions) (env : REnv) (directory : String)
    (packageFile : Nat) (cache : RCache) : RCache × ROut :=
  loadDirectoryGo o env directory (o.packages.drop packageFile) cache

/-- Model of `Resolver.resolveRelative` (class implementation): attempt the
path as a file first; only when that misses, attempt it as a
directory. -/
def resolveRelative (o : ResolverOptions) (env : REnv) (module : String)
    (cache : RCache) : RCache × ROut :=
  match loadFile o env module 0 cache with
  | (c, .found f) => (c, .found f)
  | (c, _) => loadDirectory o env module 0 c

/-- Model of `Resolver.resolveModule`: probe `<base>/<moduleDir>/<name>` for
each configured module directory in order; on exhaustion truncate
`base` at its final path separator and restart the cursor; an empty
`base` is the missing outcome.  A fatal error from a probe is treated
like a miss (the callback only tests `file`). -/
def resolveModule (o : ResolverOptions) (env : REnv) (base moduleName : String)
    (directory : Nat) (cache : RCache) : RCache × ROut :=
  if h : base.length = 0 then (cache, .missing)
  else
    let module := pathResolve3 base (o.modules.getD directory "") moduleName
    match resolveRelative o env module cache with
    | (c, .found f) => (c, .found f)
    | (c, _) =>
      if directory + 1 ≥ o.modules.length then
        resolveModule o env (truncBase base) moduleName 0 c
      else
        resolveModule o env base moduleName (directory + 1) c
termination_by (base.length, o.modules.length - directory)
decreasing_by
  · apply Prod.Lex.left
    have key : ∀ l : List Char, l ≠ [] → (truncBaseList l).length < l.length := by
      intro l
      induction l with
      | nil => intro hc; exact absurd rfl hc
      | cons c t ih =>
        intro _
        by_cases hm : '/' ∈ t
        · have ht : t ≠ [] := by
            intro he; rw [he] at hm; simp at hm
          simp only [truncBaseList, hm, if_true, List.length_cons]
          exact Nat.succ_lt_succ (ih ht)
        · simp only [truncBaseList, hm, if_false, List.length_cons, List.length_nil]
          omega
    have hb : base.data ≠ [] := by
      intro he
      apply h
      show base.data.length = 0
      rw [he]
      rfl
    exact key base.data hb
  · apply Prod.Lex.right
    omega

/-- Model of `Resolver.resolve` for a non-empty specifier: a specifier matching
`RELATIVE_PATH` (`/`, `./` or `../`) is made absolute against `base`
with a trailing `/` restored after the join, then resolved relatively;
anything else starts the upward module walk from `base`. -/
def RELATIVE_PATH (module : String) : Bool :=
  strBegins module "/" || strBegins module "./" || strBegins module "../"

/-- The join `resolve` performs for a relative specifier, including the
trailing-slash restoration. -/
def joinSpecifier (base module : String) : String :=
  let hadTrailingSlash := strEnds module "/"
  let m := pathResolve base module
  if hadTrailingSlash then m ++ "/" else m

def resolve (o : ResolverOptions) (env : REnv) (module base : String)
    (cache : RCache) : RCache × ROut :=
  if RELATIVE_PATH module then
    resolveRelative o env (joinSpecifier base module) cache
  else
    resolveModule o env base module 0 cache

/-! ## AST model and tree walker (`src/ast-walker.js`)

The esprima AST subset exercised by the walker branches the claims are
about.  Every node carries the half-open source range `[start, end)`
esprima attaches.  `Option` fields model AST properties that esprima
sets to `null` for absent parts (the walker skips non-nodes). -/

inductive JsNode where
  | program (body : List JsNode) (range : Nat × Nat)
  | exprStmt (expression : JsNode) (range : Nat × Nat)
  | blockStmt (body : List JsNode) (range : Nat × Nat)
  | switchStmt (discriminant : JsNode) (cases : List JsNode) (range : Nat × Nat)
  | switchCase (test : Option JsNode) (consequent : List JsNode) (range : Nat × Nat)
  | tryStmt (block : JsNode) (handler : Option JsNode) (finalizer : Option JsNode)
      (range : Nat × Nat)
  | catchClause (param : JsNode) (body : JsNode) (range : Nat × Nat)
  | funcExpr (id : Option JsNode) (params : List JsNode) (body : JsNode)
      (range : Nat × Nat)
  | callExpr (callee : JsNode) (arguments : List JsNode) (range : Nat × Nat)
  | memberExpr (object : JsNode) (property : JsNode) (range : Nat × Nat)
  | identifier (name : String) (range : Nat × Nat)
  | literal (range : Nat × Nat)
deriving Repr

/-- The esprima `type` tag of a node. -/
def JsNode.typeName : JsNode → String
  | .program .. => "Program"
  | .exprStmt .. => "ExpressionStatement"
  | .blockStmt .. => "BlockStatement"
  | .switchStmt .. => "SwitchStatement"
  | .switchCase .. => "SwitchCase"
  | .tryStmt .. => "TryStatement"
  | .catchClause .. => "CatchClause"
  | .funcExpr .. => "FunctionExpression"
  | .callExpr .. => "CallExpression"
  | .memberExpr .. => "MemberExpression"
  | .identifier .. => "Identifier"
  | .literal .. => "Literal"

/-- The source range of a node. -/
def JsNode.range : JsNode → Nat × Nat
  | .program _ r => r
  | .exprStmt _ r => r
  | .blockStmt _ r => r
  | .switchStmt _ _ r => r
  | .switchCase _ _ r => r
  | .tryStmt _ _ _ r => r
  | .catchClause _ _ r => r
  | .funcExpr _ _ _ r => r
  | .callExpr _ _ r => r
  | .memberExpr _ _ r => r
  | .identifier _ r => r
  | .literal r => r

mutual
/-- Structural size of a node, used as the walker's termination
measure. -/
def nsize : JsNode → Nat
  | .program b _ => 1 + nsizeList b
  | .exprStmt e _ => 1 + nsize e
  | .blockStmt b _ => 1 + nsizeList b
  | .switchStmt d cs _ => 1 + nsize d + nsizeList cs
  | .switchCase t c _ => 1 + nsizeOpt t + nsizeList c
  | .tryStmt b hd f _ => 1 + nsize b + nsizeOpt hd + nsizeOpt f
  | .catchClause p b _ => 1 + nsize p + nsize b
  | .funcExpr i ps b _ => 1 + nsizeOpt i + nsizeList ps + nsize b
  | .callExpr c as _ => 1 + nsize c + nsizeList as
  | .memberExpr ob pr _ => 1 + nsize ob + nsize pr
  | .identifier _ _ => 1
  | .literal _ => 1
def nsizeList : List JsNode → Nat
  | [] => 0
  | n :: ns => nsize n + nsizeList ns
def nsizeOpt : Option JsNode → Nat
  | none => 0
  | some n => nsize n
end

/-- The children `ASTWalker.walk` enqueues when visiting a node.  Two
branches of the source read the queue variable instead of the node
(`nodes.cases` in the `SwitchStatement` arm and `nodes.block` in the
`TryStatement` arm); those expressions evaluate to `undefined`, which
the walker's `if(!node) continue` guard then discards, so switch cases
and try blocks are never enqueued.  The model reproduces exactly the
nodes that survive the guard.  (`node.guard`, `node.guardedHandlers`,
`node.defaults` and `node.rest` are likewise `undefined` on esprima
output and are discarded by the same guard.) -/
def walkStep : JsNode → List JsNode
  | .program b _ => b
  | .exprStmt e _ => [e]
  | .blockStmt b _ => b
  | .switchStmt d _ _ => [d]
  | .switchCase t c _ => t.toList ++ c
  | .tryStmt _ hd f _ => hd.toList ++ f.toList
  | .catchClause p b _ => [p, b]
  | .funcExpr i ps b _ => i.toList ++ ps ++ [b]
  | .callExpr c as _ => c :: as
  | .memberExpr ob pr _ => [ob, pr]
  | .identifier _ _ => []
  | .literal _ => []

/-- The full child list of a node (what the walker was plainly intended
to enqueue): used to state what a complete traversal visits. -/
def childrenFull : JsNode → List JsNode
  | .program b _ => b
  | .exprStmt e _ => [e]
  | .blockStmt b _ => b
  | .switchStmt d cs _ => d :: cs
  | .switchCase t c _ => t.toList ++ c
  | .tryStmt b hd f _ => b :: (hd.toList ++ f.toList)
  | .catchClause p b _ => [p, b]
  | .funcExpr i ps b _ => i.toList ++ ps ++ [b]
  | .callExpr c as _ => c :: as
  | .memberExpr ob pr _ => [ob, pr]
  | .identifier _ _ => []
  | .literal _ => []

/-- The queue loop of `ASTWalker.walk` with an explicit recursion budget
(the budget argument is an embedding artifact; `walkList` below always
supplies enough, as the `walkList_cons` unfolding law proves). -/
def walkListGo : Nat → List JsNode → List JsNode
  | 0, _ => []
  | _ + 1, [] => []
  | k + 1, n :: rest => n :: walkListGo k (rest ++ walkStep n)

/-- Model of `ASTWalker.walk`: breadth-first traversal of the tree, returning
the nodes in visit order (the order in which the dispatcher is
consulted).  The source's `nodes.shift()` / `nodes.concat(children)`
queue is the list argument. -/
def walkList (queue : List JsNode) : List JsNode :=
  walkListGo (nsizeList queue) queue

/-- The complete traversal's queue loop, with a recursion budget as in
`walkListGo`. -/
def fullWalkGo : Nat → List JsNode → List JsNode
  | 0, _ => []
  | _ + 1, [] => []
  | k + 1, n :: rest => n :: fullWalkGo k (rest ++ childrenFull n)

/-- Reference traversal visiting the *complete* child schema (what the
hand-enumerated walk was plainly intended to do): used to state which
call expressions exist in a tree. -/
def fullWalk (queue : List JsNode) : List JsNode :=
  fullWalkGo (nsizeList queue) queue

/-- Is this node a `CallExpression`? -/
def isCall : JsNode → Bool
  | .callExpr .. => true
  | _ => false

/-- All call-expression nodes contained anywhere in a tree. -/
def allCalls (ast : JsNode) : List JsNode :=
  (fullWalk [ast]).filter isCall

/-! ## Source scanner (`src/required.js`) -/

/-- A single occurrence of a requirement call: the source slice of the
whole call expression and its character offsets (`position.start` /
`position.end`). -/
structure Reference where
  source : String
  startPos : Nat
  endPos : Nat
deriving DecidableEq, Repr

/-- A requirement discovered in a file: the stored textual path, the
static flag, and every reference sharing that path. -/
structure Requirement where
  path : String
  static : Bool
  references : List Reference
deriving DecidableEq, Repr

/-- Model of `grabSource(source, range)` — the source slice of a half-open
range. -/
def grabSource (source : String) (range : Nat × Nat) : String :=
  jsSubstring source range.1 range.2

/-- The test `callee.type == "Identifier" && callee.name == "require"`. -/
def isRequireCallee : JsNode → Bool
  | .identifier nm _ => nm = "require"
  | _ => false

/-- The qualification-and-classification part of `trackRequirement`:
`none` when the call is not a require site (callee not a bare
`require` identifier or arity ≠ 1, or the node is not a call at all);
otherwise the stored path, the static flag (`first.type == "Literal"`),
and the `Reference` for this occurrence.  A static path is the
argument's source slice with its first and last code unit removed
(`path.substring(1, path.length - 1)`). -/
def requireSite (source : String) (node : JsNode) :
    Option (String × Bool × Reference) :=
  match node with
  | .callExpr callee args nrange =>
    if isRequireCallee callee = false ∨ args.length ≠ 1 then none
    else
      match args with
      | [first] =>
        let staticRequire : Bool := first.typeName == "Literal"
        let path0 := grabSource source first.range
        let path := if staticRequire then jsSubstring path0 1 (path0.length - 1)
                    else path0
        some (path, staticRequire, ⟨grabSource source nrange, nrange.1, nrange.2⟩)
      | _ => none
  | _ => none

/-- The fold `required[path] = required[path] || {references:[], path, static};
required[path].references.push(ref)`: fold one occurrence into the
accumulator object (insertion order of properties preserved; an
existing descriptor keeps its original static flag). -/
def upsertRequirement (required : List (String × Requirement)) (path : String)
    (staticRequire : Bool) (ref : Reference) : List (String × Requirement) :=
  if (alookup required path).isSome then
    updAssoc required path (fun r => { r with references := r.references ++ [ref] })
  else
    required ++ [(path, ⟨path, staticRequire, [ref]⟩)]

/-- Model of `trackRequirement`: ignore non-require calls, otherwise fold the
occurrence into the accumulator. -/
def trackRequirement (source : String) (required : List (String × Requirement))
    (node : JsNode) : List (String × Requirement) :=
  match requireSite source node with
  | none => required
  | some (path, staticRequire, ref) => upsertRequirement required path staticRequire ref

/-- Decimal digit test (kernel-evaluable). -/
def isDigitChar (c : Char) : Bool := '0' ≤ c && c ≤ '9'

/-- Value of a decimal digit string. -/
def digitsToNat (l : List Char) : Nat :=
  l.foldl (fun n c => n * 10 + (c.toNat - 48)) 0

/-- Is this string an ECMAScript array-index property key (a canonical
decimal integer below `2^32 - 1`)?  `for(var path in required)`
enumerates such keys first, in ascending numeric order, before the
remaining string keys in insertion order. -/
def isArrayIndexKey (s : String) : Bool :=
  s ≠ "" && s.toList.all isDigitChar && (s = "0" || s.toList.headD '0' ≠ '0')
    && (digitsToNat s.toList < 2 ^ 32 - 1)

/-- Numeric value of a property key (`0` when not numeric). -/
def keyNat (s : String) : Nat := digitsToNat s.toList

/-- Stable insertion into a list sorted ascending by `keyNat` of the
key. -/
def insertAsc {β : Type} (x : String × β) : List (String × β) → List (String × β)
  | [] => [x]
  | y :: ys => if keyNat x.1 ≤ keyNat y.1 then x :: y :: ys else y :: insertAsc x ys

/-- Sort entries ascending by numeric key. -/
def sortByKeyNat {β : Type} (l : List (String × β)) : List (String × β) :=
  l.foldr insertAsc []

/-- ECMAScript own-property enumeration order for string-keyed plain
objects (ES2015 `OrdinaryOwnPropertyKeys`): array-index keys first in
ascending numeric order, then the other keys in insertion order. -/
def jsKeyOrder {β : Type} (l : List (String × β)) : List (String × β) :=
  sortByKeyNat (l.filter (fun e => isArrayIndexKey e.1))
    ++ l.filter (fun e => !isArrayIndexKey e.1)

/-- Model of `Required.analyze` given the parser's output: walk the tree
dispatching `trackRequirement` on every visited `CallExpression`, then
convert the accumulator object to an array by `for(var path in
required) trimed.push(required[path])`. -/
def Required.analyze (source : String) (ast : JsNode) : List Requirement :=
  let required := (walkList [ast]).foldl (trackRequirement source) []
  (jsKeyOrder required).map (·.2)

/-! ## Dependency grapher (`src/dependencies.js`) -/

/-- A Dependency Record as pushed onto `file.dependencies`: the path as
written, the static flag, the reference list copied from the
requirement, and the resolved File Record (by its identity, the
absolute path) or an error. -/
structure DepRecord where
  path : String
  static : Bool
  references : List Reference
  file : Option String
  error : Option String
deriving DecidableEq, Repr

/-- The vinyl file handed to `Dependencies.analyze`: its identity
(absolute path) plus the two properties the compatibility guard
inspects (`vinyl.isVinyl(file)` and `file.isNull()`).  Files produced
by the resolver are always vinyl records with non-null contents. -/
structure VFile where
  path : String
  isVinylRec : Bool
  nullContents : Bool
deriving DecidableEq, Repr

/-- The grapher's collaborators, all finite: `files` is the set of
absolute paths the filesystem can provide (File Records ever
obtainable); `scanTable` gives `Required.analyze`'s requirement list
for each file; `resolveTable` gives the resolver's outcome
(`this.resolver.resolve(path, dirname)`) keyed by (specifier,
directory) — the resolver is deterministic, injected via
`options.resolver`, and a missing entry is a resolution miss. -/
structure GEnv where
  files : List String
  scanTable : List (String × List Requirement)
  resolveTable : List ((String × String) × String)

/-- The mutable state threaded through the walk: `deps` assigns each
processed File Record (by path) its dependency list — presence of a
key is exactly `file.dependencies` being set; `fileCache` is the set
of keys of the path-keyed `Resolver.cache` (a successful resolution
caches the File Record under its path); `dirCache` is
`Dependencies.cache[dirname][path] = {file, error}`. -/
structure GState where
  deps : List (String × List DepRecord)
  fileCache : List String
  dirCache : List ((String × String) × (Option String × Option String))
deriving DecidableEq, Repr

/-- Terminal behaviour of one `analyze`/`resolveRequirements` call:
`fuelOut` is the embedding's recursion budget running dry (never the
program's behaviour — the termination theorem shows enough fuel always
exists), `noCb` is returning *without* invoking the completion
callback, `done st` is invoking it exactly once, leaving state `st`. -/
inductive ARes where
  | fuelOut
  | noCb
  | done (st : GState)
deriving DecidableEq, Repr

/-- The requirement list `Required.analyze(file)` returns for a file. -/
def scanOf (env : GEnv) (p : String) : List Requirement :=
  (alookup env.scanTable p).getD []

/-- The outcome of `this.resolver.resolve(path, dirname)`. -/
def resolveOf (env : GEnv) (specifier dirname : String) : Option String :=
  alookup env.resolveTable (specifier, dirname)

/-- The assignment `file.dependencies = []` — the cycle-breaking sentinel. -/
def markDeps (st : GState) (p : String) : GState :=
  { st with deps := st.deps ++ [(p, [])] }

/-- The push `file.dependencies.push(record)`. -/
def pushDep (st : GState) (p : String) (d : DepRecord) : GState :=
  { st with deps := updAssoc st.deps p (fun l => l ++ [d]) }

/-- A successful resolution caches its File Record in the path-keyed
cache under its path (at most one record per path: an existing entry
is reused). -/
def cacheFileRecord (st : GState) (q : String) : GState :=
  { st with fileCache := if q ∈ st.fileCache then st.fileCache else st.fileCache ++ [q] }

/-- The store `Dependencies.cache[dirname][path] = {file, error}`. -/
def cacheDirResult (st : GState) (dir p : String)
    (out : Option String × Option String) : GState :=
  { st with dirCache := st.dirCache ++ [((dir, p), out)] }

mutual
/-- Model of `Dependencies.resolveRequirements`: process the requirement list of
`filePath` in order.  A dynamic requirement records `file: null, error:
'Unable to resolve dynamic dependency'` and continues.  A static one
first consults `Dependencies.cache[dirname][path]`; on a hit the cached
outcome is recorded and the walk continues *without* recursing.
Otherwise the resolver runs; its outcome is cached and recorded, and on
success the dependent file's own dependencies are resolved by a
recursive `analyze` before the next sibling requirement. -/
def Dependencies.resolveRequirements (env : GEnv) (fuel : Nat) (st : GState)
    (filePath : String) (requirements : List Requirement) : ARes :=
  match requirements with
  | [] => .done st
  | requirement :: rest =>
    if requirement.static = false then
      Dependencies.resolveRequirements env fuel
        (pushDep st filePath
          ⟨requirement.path, requirement.static, requirement.references,
            none, some "Unable to resolve dynamic dependency"⟩)
        filePath rest
    else
      let dirname := jsDirname filePath
      match alookup st.dirCache (dirname, requirement.path) with
      | some cacheResult =>
        Dependencies.resolveRequirements env fuel
          (pushDep st filePath
            ⟨requirement.path, requirement.static, requirement.references,
              cacheResult.1, cacheResult.2⟩)
          filePath rest
      | none =>
        match resolveOf env requirement.path dirname with
        | some dependent =>
          let st1 := cacheFileRecord st dependent
          let st2 := cacheDirResult st1 dirname requirement.path (some dependent, none)
          let st3 := pushDep st2 filePath
            ⟨requirement.path, requirement.static, requirement.references,
              some dependent, none⟩
          match Dependencies.analyze env fuel st3 ⟨dependent, true, false⟩ with
          | .done st4 => Dependencies.resolveRequirements env fuel st4 filePath rest
          | r => r
        | none =>
          let st1 := cacheDirResult st dirname requirement.path
            (none, some "Unable to locate dependency")
          let st2 := pushDep st1 filePath
            ⟨requirement.path, requirement.static, requirement.references,
              none, some "Unable to locate dependency"⟩
          Dependencies.resolveRequirements env fuel st2 filePath rest
termination_by (fuel, 1 + requirements.length)

/-- Model of `Dependencies.analyze`: a non-vinyl or null-contents file returns
*without invoking the callback*; a file whose dependency list is
already assigned invokes it immediately; otherwise the empty sentinel
list is assigned, the scanner runs, and the requirements are resolved.
`fuel` only bounds the embedding's recursion depth. -/
def Dependencies.analyze (env : GEnv) (fuel : Nat) (st : GState) (file : VFile) : ARes :=
  if file.isVinylRec = false ∨ file.nullContents = true then .noCb
  else if (alookup st.deps file.path).isSome then .done st
  else
    match fuel with
    | 0 => .fuelOut
    | f + 1 =>
      Dependencies.resolveRequirements env f (markDeps st file.path) file.path
        (scanOf env file.path)
termination_by (fuel, 0)
end

/-! ## Derived specification-side definitions

These definitions restate parts of the algorithms in the form the
claims quantify over; the theorems relate them to the embedded
source functions above. -/

/-- The probe sequence `resolveModule` performs at one base: try
`<base>/<moduleDir>/<name>` by relative resolution for each remaining
module directory, first success wins. -/
def probeModsGo (o : ResolverOptions) (env : REnv) (b name : String) :
    List String → RCache → RCache × ROut
  | [], c => (c, .missing)
  | m :: rest, c =>
    match resolveRelative o env (pathResolve3 b m name) c with
    | (c', .found f) => (c', .found f)
    | (c', _) => probeModsGo o env b name rest c'

/-- Probe each base in turn with the full module-directory list;
exhaustion of the bases is the missing outcome. -/
def probeBases (o : ResolverOptions) (env : REnv) (bases : List String)
    (name : String) (cache : RCache) : RCache × ROut :=
  match bases with
  | [] => (cache, .missing)
  | b :: bs =>
    match probeModsGo o env b name o.modules cache with
    | (c, .found f) => (c, .found f)
    | (c, _) => probeBases o env bs name c

/-- The chain of bases visited by the upward walk, with a recursion
budget (an embedding artifact; `ancestorChain` always supplies
enough). -/
def ancestorChainGo : Nat → String → List String
  | 0, _ => []
  | k + 1, b => if b.length = 0 then [] else b :: ancestorChainGo k (truncBase b)

/-- The chain of bases the upward walk visits: the starting base, then
each successive truncation at the final path separator, stopping at
the empty string. -/
def ancestorChain (base : String) : List String :=
  ancestorChainGo (base.length + 1) base

/-- Modelled from the spec's words: directory `d` is an *ancestor
directory* of `base` when `base` is `d` itself or lies strictly below
`d`.  Used to compare the claim's "probes every ancestor directory"
with the truncation chain the code actually visits. -/
def isAncestorDirSpec (d base : String) : Bool :=
  d = base || strBegins base (if strEnds d "/" then d else d ++ "/")

/-- Modelled from the spec's words: a *string-literal node* — a
`Literal` whose raw source begins with a quote character.  (esprima's
`Literal` type also covers numeric, boolean, `null` and regex
literals; the scanner source only ever tests `first.type ==
"Literal"`.) -/
def isStringLiteralNode (source : String) (n : JsNode) : Bool :=
  match n with
  | .literal r =>
    let raw := grabSource source r
    strBegins raw "'" || strBegins raw "\""
  | _ => false

/-- Every qualifying require occurrence the walker dispatches, in visit
order: stored path, static flag, and reference. -/
def requireOccurrences (source : String) (ast : JsNode) :
    List (String × Bool × Reference) :=
  (walkList [ast]).filterMap (requireSite source)

/-- The references belonging to stored path `p`, in visit order. -/
def refsForPath (source : String) (ast : JsNode) (p : String) : List Reference :=
  ((requireOccurrences source ast).filter (fun occ => occ.1 == p)).map
    (fun occ => occ.2.2)

/-- First occurrence of each element, preserving order of first
sighting (`seen` accumulates what has already appeared). -/
def dedupFirstAux (seen : List String) : List String → List String
  | [] => []
  | s :: t =>
    if s ∈ seen then dedupFirstAux seen t else s :: dedupFirstAux (seen ++ [s]) t

/-- First-sighting deduplication. -/
def dedupFirst (l : List String) : List String := dedupFirstAux [] l

/-- Stable insertion of a bare key into a list sorted ascending by
`keyNat`. -/
def insertAscKey (x : String) : List String → List String
  | [] => [x]
  | y :: ys => if keyNat x ≤ keyNat y then x :: y :: ys else y :: insertAscKey x ys

/-- Sort bare keys ascending by numeric value. -/
def sortKeysAsc (l : List String) : List String := l.foldr insertAscKey []

/-- ECMAScript enumeration order on bare keys: array-index keys first
in ascending numeric order, then the rest in the order given. -/
def jsEnumKeysOrder (ks : List String) : List String :=
  sortKeysAsc (ks.filter isArrayIndexKey) ++ ks.filter (fun k => !isArrayIndexKey k)

/-- Number of known files whose dependency list is not yet assigned:
the measure that bounds the depth of the graph walk. -/
def unmarkedCount (env : GEnv) (st : GState) : Nat :=
  (env.files.filter (fun q => alookup st.deps q = none)).length

/-- Every file with an assigned dependency list in `st` still has one
in `st'` (dependency lists are never unassigned). -/
def markedLE (st st' : GState) : Prop :=
  ∀ q : String, (alookup st.deps q).isSome → (alookup st'.deps q).isSome

/-- Every resolved Dependency Record points at a File Record present in
the path-keyed cache. -/
def DepsInCache (st : GState) : Prop :=
  ∀ p l, alookup st.deps p = some l →
    ∀ d ∈ l, ∀ q, d.file = some q → q ∈ st.fileCache

/-- Every successful per-directory cache entry points at a File Record
present in the path-keyed cache. -/
def DirCacheInCache (st : GState) : Prop :=
  ∀ k v, alookup st.dirCache k = some v → ∀ q, v.1 = some q → q ∈ st.fileCache

/-- The grapher's state invariant: the path-keyed cache holds at most
one record per path, and both dependency records and per-directory
cache entries only reference cached records. -/
def GInv (st : GState) : Prop :=
  st.fileCache.Nodup ∧ DepsInCache st ∧ DirCacheInCache st

/-- Every recorded dynamic dependency has an absent file and exactly
the grapher's well-known error string. -/
def DynInv (st : GState) : Prop :=
  ∀ p l, alookup st.deps p = some l →
    ∀ d ∈ l, d.static = false →
      d.file = none ∧ d.error = some "Unable to resolve dynamic dependency"

/-- The resolver only ever produces files the (finite) filesystem can
provide. -/
def resolveClosed (env : GEnv) : Prop :=
  ∀ e ∈ env.resolveTable, e.2 ∈ env.files

/-- Relation between the states before and after a completed
`analyze`/`resolveRequirements` run: dependency-list assignment and the
path-keyed cache only grow, and the two global invariants are
preserved. -/
def PrePost (st st' : GState) : Prop :=
  markedLE st st' ∧ (∀ q, q ∈ st.fileCache → q ∈ st'.fileCache)
    ∧ (GInv st → GInv st') ∧ (DynInv st → DynInv st')

/-! ## Basic lemmas -/

theorem alookup_append {α β : Type} [DecidableEq α] (l m : List (α × β)) (a : α) :
    alookup (l ++ m) a =
      match alookup l a with
      | some v => some v
      | none => alookup m a := by
  induction l with
  | nil => simp [alookup]
  | cons e l ih =>
    obtain ⟨k, v⟩ := e
    by_cases h : k = a <;> simp [alookup, h, ih]

theorem updAssoc_alookup {α β : Type} [DecidableEq α] (l : List (α × β)) (p : α)
    (g : β → β) (q : α) :
    alookup (updAssoc l p g) q =
      if q = p then (alookup l q).map g else alookup l q := by
  induction l with
  | nil => simp [alookup, updAssoc]
  | cons e l ih =>
    obtain ⟨k, v⟩ := e
    simp only [updAssoc]
    by_cases hk : k = p
    · subst hk
      simp only [if_pos rfl]
      by_cases hq : k = q
      · subst hq
        simp [alookup]
      · simp [alookup, hq, ih]
    · simp only [if_neg hk]
      by_cases hq : k = q
      · subst hq
        have hqp : ¬ k = p := hk
        simp [alookup, hqp]
      · simp [alookup, hq, ih]

/-! ## Resolver theorems -/

/-- C2: for a relative specifier joined against the base directory,
`resolve` attempts file resolution at the joined path first; only on a
miss does it attempt directory resolution at the same path; the first
success is returned, and when both miss the outcome is absent with no
error string. -/
theorem C2_relative_file_first (o : ResolverOptions) (env : REnv)
    (s base : String) (cache : RCache) (hrel : RELATIVE_PATH s = true) :
    (∀ c f, loadFile o env (joinSpecifier base s) 0 cache = (c, .found f) →
      resolve o env s base cache = (c, .found f))
    ∧ (∀ c, loadFile o env (joinSpecifier base s) 0 cache = (c, .missing) →
      resolve o env s base cache = loadDirectory o env (joinSpecifier base s) 0 c)
    ∧ (∀ c c', loadFile o env (joinSpecifier base s) 0 cache = (c, .missing) →
        loadDirectory o env (joinSpecifier base s) 0 c = (c', .missing) →
        resolve o env s base cache = (c', .missing)) := by
  refine ⟨?_, ?_, ?_⟩
  · intro c f hlf
    simp [resolve, hrel, resolveRelative, hlf]
  · intro c hlf
    simp [resolve, hrel, resolveRelative, hlf]
  · intro c c' hlf hld
    simp [resolve, hrel, resolveRelative, hlf, hld]

/-- C2 witness: `require('./b')` from `/a` resolves `/a/b.js` (file
resolution at the joined path wins). -/
theorem C2_witness :
    resolve defaultOptions ⟨[("/a/b.js", "X")], []⟩ "./b" "/a" []
      = ([("/a/b.js", ⟨"/a/b.js", "X"⟩)], .found ⟨"/a/b.js", "X"⟩) :=
  (C2_relative_file_first defaultOptions ⟨[("/a/b.js", "X")], []⟩ "./b" "/a" []
    (by decide)).1 _ _ (by decide)

/-- C3 (amended): `loadDirectory` tries configured manifests in order —
a read failure advances to the next manifest; a JSON parse failure is
fatal with error string `"Package file is incorrectly formatted:
<path>"` (not `"malformed package manifest: <path>"`) and stops the
resolution; when the selected entry point misses as a file,
`<entry>/<index>` is tried, and on a further miss all remaining
manifests are skipped and `<directory>/<index>` is attempted. -/
theorem C3_loadDirectory_policy (o : ResolverOptions) (env : REnv)
    (directory : String) (pf : Nat) (cache : RCache)
    (hpf : pf < o.packages.length) :
    (alookup env.fs (pathResolve directory (o.packages.getD pf "")) = none →
      loadDirectory o env directory pf cache
        = loadDirectory o env directory (pf + 1) cache)
    ∧ (∀ raw, alookup env.fs (pathResolve directory (o.packages.getD pf "")) = some raw →
        alookup env.jsonTable raw = none →
        loadDirectory o env directory pf cache
          = (cache, .failed ("Package file is incorrectly formatted: "
              ++ pathResolve directory (o.packages.getD pf ""))))
    ∧ (∀ raw pkg c1 c2 f,
        alookup env.fs (pathResolve directory (o.packages.getD pf "")) = some raw →
        alookup env.jsonTable raw = some pkg →
        loadFile o env (pathResolve directory (getEntryPoint o pkg)) 0 cache
          = (c1, .missing) →
        loadFile o env (pathResolve (pathResolve directory (getEntryPoint o pkg)) o.index) 0 c1
          = (c2, .found f) →
        loadDirectory o env directory pf cache = (c2, .found f))
    ∧ (∀ raw pkg c1 c2,
        alookup env.fs (pathResolve directory (o.packages.getD pf "")) = some raw →
        alookup env.jsonTable raw = some pkg →
        loadFile o env (pathResolve directory (getEntryPoint o pkg)) 0 cache
          = (c1, .missing) →
        loadFile o env (pathResolve (pathResolve directory (getEntryPoint o pkg)) o.index) 0 c1
          = (c2, .missing) →
        loadDirectory o env directory pf cache
          = loadFile o env (pathResolve directory o.index) 0 c2) := by
  have hgetd : o.packages.getD pf "" = o.packages[pf] := List.getD_eq_getElem o.packages "" hpf
  have hdrop : o.packages.drop pf = o.packages.getD pf "" :: o.packages.drop (pf + 1) := by
    rw [hgetd]
    exact List.drop_eq_getElem_cons hpf
  refine ⟨?_, ?_, ?_, ?_⟩
  · intro hread
    simp only [loadDirectory]
    rw [hdrop]
    simp only [loadDirectoryGo, hread]
  · intro raw hread hparse
    simp only [loadDirectory]
    rw [hdrop]
    simp only [loadDirectoryGo, hread, hparse]
  · intro raw pkg c1 c2 f hread hparse h1 h2
    simp only [loadFile, List.drop_zero] at h1 h2
    simp only [loadDirectory]
    rw [hdrop]
    simp only [loadDirectoryGo, hread, hparse, h1, h2]
  · intro raw pkg c1 c2 hread hparse h1 h2
    simp only [loadFile, List.drop_zero] at h1 h2
    simp only [loadDirectory, List.drop_zero]
    rw [hdrop]
    simp only [loadDirectoryGo, hread, hparse, h1, h2, loadFile, List.drop_zero]

/-- C3 counterexample: a malformed `/a/package.json` is fatal with the
code's actual error string, which is not the claimed
`"malformed package manifest: <path>"`. -/
theorem C3_counterexample :
    loadDirectory defaultOptions ⟨[("/a/package.json", "oops")], []⟩ "/a" 0 []
      = ([], .failed "Package file is incorrectly formatted: /a/package.json")
    ∧ "Package file is incorrectly formatted: /a/package.json"
        ≠ "malformed package manifest: /a/package.json" :=
  ⟨by decide, by decide⟩

/-- C3 witness: a manifest whose entry point misses both as a file and
as `<entry>/<index>` falls through to the `<directory>/<index>` file
load, skipping the remaining manifests. -/
theorem C3_witness :
    loadDirectory defaultOptions
      ⟨[("/a/package.json", "PKG")], [("PKG", .jobj [("main", .jstr "nope.js")])]⟩
      "/a" 0 []
      = loadFile defaultOptions
          ⟨[("/a/package.json", "PKG")], [("PKG", .jobj [("main", .jstr "nope.js")])]⟩
          (pathResolve "/a" "index") 0 [] :=
  (C3_loadDirectory_policy defaultOptions
      ⟨[("/a/package.json", "PKG")], [("PKG", .jobj [("main", .jstr "nope.js")])]⟩
      "/a" 0 [] (by decide)).2.2.2 "PKG" (.jobj [("main", .jstr "nope.js")]) [] []
    (by rfl) (by rfl) (by decide) (by decide)

theorem truncBaseList_length_lt (l : List Char) (h : l ≠ []) :
    (truncBaseList l).length < l.length := by
  induction l with
  | nil => exact absurd rfl h
  | cons c t ih =>
    by_cases hm : '/' ∈ t
    · have ht : t ≠ [] := by
        intro he
        rw [he] at hm
        simp at hm
      simp only [truncBaseList, hm, if_true, List.length_cons]
      exact Nat.succ_lt_succ (ih ht)
    · simp only [truncBaseList, hm, if_false, List.length_cons, List.length_nil]
      omega

theorem truncBase_length_lt (base : String) (h : base.length ≠ 0) :
    (truncBase base).length < base.length := by
  have hb : base.data ≠ [] := by
    intro he
    apply h
    show base.data.length = 0
    rw [he]
    rfl
  exact truncBaseList_length_lt base.data hb

theorem ancestorChainGo_congr (k : Nat) :
    ∀ (k' : Nat) (b : String), b.length < k → b.length < k' →
      ancestorChainGo k b = ancestorChainGo k' b := by
  induction k with
  | zero => intro k' b h _; omega
  | succ a ih =>
    intro k' b h h'
    cases k' with
    | zero => omega
    | succ c =>
      by_cases hb : b.length = 0
      · simp [ancestorChainGo, hb]
      · have hlt := truncBase_length_lt b hb
        simp only [ancestorChainGo, hb, if_false]
        rw [ih c (truncBase b) (by omega) (by omega)]

theorem ancestorChain_unfold (b : String) :
    ancestorChain b =
      if b.length = 0 then [] else b :: ancestorChain (truncBase b) := by
  by_cases hb : b.length = 0
  · simp [ancestorChain, ancestorChainGo, hb]
  · have hlt := truncBase_length_lt b hb
    rw [if_neg hb]
    show (if b.length = 0 then [] else b :: ancestorChainGo b.length (truncBase b)) = _
    rw [if_neg hb,
      ancestorChainGo_congr b.length ((truncBase b).length + 1) (truncBase b)
        (by omega) (by omega)]
    rfl

theorem resolveModule_step (o : ResolverOptions) (env : REnv) (name : String) :
    ∀ (k dirIdx : Nat) (base : String) (cache : RCache),
      base.length ≠ 0 → dirIdx < o.modules.length →
      o.modules.length - dirIdx ≤ k →
      resolveModule o env base name dirIdx cache =
        (match probeModsGo o env base name (o.modules.drop dirIdx) cache with
         | (c, .found f) => (c, .found f)
         | (c, _) => resolveModule o env (truncBase base) name 0 c) := by
  intro k
  induction k with
  | zero =>
    intro dirIdx base cache hb hd hk
    omega
  | succ a ih =>
    intro dirIdx base cache hb hd hk
    have hgetd : o.modules.getD dirIdx "" = o.modules[dirIdx] :=
      List.getD_eq_getElem o.modules "" hd
    have hdrop : o.modules.drop dirIdx
        = o.modules.getD dirIdx "" :: o.modules.drop (dirIdx + 1) := by
      rw [hgetd]
      exact List.drop_eq_getElem_cons hd
    rw [hdrop]
    rw [resolveModule, dif_neg hb]
    simp only [probeModsGo]
    rcases hres : resolveRelative o env
        (pathResolve3 base (o.modules.getD dirIdx "") name) cache with ⟨c, r⟩
    cases r with
    | found f => rfl
    | failed e =>
      dsimp only
      by_cases hge : o.modules.length ≤ dirIdx + 1
      · rw [if_pos (by omega : dirIdx + 1 ≥ o.modules.length)]
        rw [List.drop_eq_nil_of_le hge]
        rfl
      · rw [if_neg (by omega : ¬ dirIdx + 1 ≥ o.modules.length)]
        rw [ih (dirIdx + 1) base c hb (by omega) (by omega)]
    | missing =>
      dsimp only
      by_cases hge : o.modules.length ≤ dirIdx + 1
      · rw [if_pos (by omega : dirIdx + 1 ≥ o.modules.length)]
        rw [List.drop_eq_nil_of_le hge]
        rfl
      · rw [if_neg (by omega : ¬ dirIdx + 1 ≥ o.modules.length)]
        rw [ih (dirIdx + 1) base c hb (by omega) (by omega)]

theorem resolveModule_eq_probeBases (o : ResolverOptions) (env : REnv)
    (name : String) :
    ∀ (n : Nat) (base : String) (cache : RCache), base.length ≤ n →
      0 < o.modules.length →
      resolveModule o env base name 0 cache
        = probeBases o env (ancestorChain base) name cache := by
  intro n
  induction n with
  | zero =>
    intro base cache hn _
    have hb : base.length = 0 := by omega
    rw [resolveModule, dif_pos hb, ancestorChain_unfold, if_pos hb]
    rfl
  | succ m ih =>
    intro base cache hn hmod
    by_cases hb : base.length = 0
    · rw [resolveModule, dif_pos hb, ancestorChain_unfold, if_pos hb]
      rfl
    · rw [resolveModule_step o env name o.modules.length 0 base cache hb hmod
        (by omega)]
      rw [List.drop_zero, ancestorChain_unfold, if_neg hb]
      have hlt := truncBase_length_lt base hb
      simp only [probeBases]
      rcases hpm : probeModsGo o env base name o.modules cache with ⟨c, r⟩
      cases r with
      | found f => rfl
      | failed e =>
        dsimp only
        exact ih (truncBase base) c (by omega) hmod
      | missing =>
        dsimp only
        exact ih (truncBase base) c (by omega) hmod

/-- C4 (amended): `resolveModule` terminates, probing
`<base>/<moduleDir>/<name>` for each configured module directory in
order at each base of the truncation chain (the starting base, then
each truncation at the final path separator, the walk ending — with
the absent outcome — when the base becomes empty).  The chain omits
the filesystem root when the starting base lies below it, so the root
directory's module directories are never probed. -/
theorem C4_resolveModule_walk (o : ResolverOptions) (env : REnv)
    (base name : String) (cache : RCache) (hmod : 0 < o.modules.length) :
    resolveModule o env base name 0 cache
      = probeBases o env (ancestorChain base) name cache :=
  resolveModule_eq_probeBases o env name base.length base cache le_rfl hmod

/-- C4 witness: the default configuration walks `/a/b/c`, `/a/b`, `/a`
(scenario: only `/a/node_modules/x/index.js` exists, and the module is
found there). -/
theorem C4_witness :
    resolveModule defaultOptions ⟨[("/a/node_modules/x/index.js", "IX")], []⟩
        "/a/b/c" "x" 0 []
      = probeBases defaultOptions ⟨[("/a/node_modules/x/index.js", "IX")], []⟩
          (ancestorChain "/a/b/c") "x" []
    ∧ probeBases defaultOptions ⟨[("/a/node_modules/x/index.js", "IX")], []⟩
          (ancestorChain "/a/b/c") "x" []
      = ([("/a/node_modules/x/index.js", ⟨"/a/node_modules/x/index.js", "IX"⟩)],
          .found ⟨"/a/node_modules/x/index.js", "IX"⟩) :=
  ⟨C4_resolveModule_walk defaultOptions ⟨[("/a/node_modules/x/index.js", "IX")], []⟩
      "/a/b/c" "x" [] (by decide), by decide⟩

/-- C4 counterexample: starting from base `/a`, the walk misses the
filesystem root — `/` is an ancestor directory of `/a` and
`/node_modules/x` exists (relative resolution of it succeeds), yet
`resolveModule` returns the absent outcome because the truncation
chain from `/a` is `["/a"]` and never contains `/`. -/
theorem C4_counterexample :
    resolveModule defaultOptions ⟨[("/node_modules/x", "ROOTX")], []⟩ "/a" "x" 0 []
      = ([], .missing)
    ∧ resolveRelative defaultOptions ⟨[("/node_modules/x", "ROOTX")], []⟩
        (pathResolve3 "/" "node_modules" "x") []
      = ([("/node_modules/x", ⟨"/node_modules/x", "ROOTX"⟩)],
          .found ⟨"/node_modules/x", "ROOTX"⟩)
    ∧ isAncestorDirSpec "/" "/a" = true
    ∧ "/" ∉ ancestorChain "/a" := by
  refine ⟨?_, by decide, by decide, by decide⟩
  rw [resolveModule_eq_probeBases defaultOptions ⟨[("/node_modules/x", "ROOTX")], []⟩
    "x" 2 "/a" [] (by decide) (by decide)]
  decide

/-! ## Scanner theorems -/

/-- C6 (amended): a call expression yields a require descriptor iff its
callee is a bare identifier named exactly `require` and its argument
list has length exactly one; the descriptor is static iff the single
argument is a `Literal` node of *any* kind (the scanner only tests
`first.type == "Literal"`, so numeric, boolean, `null` and regex
literals are also classified static, not only string literals); a
static descriptor stores the argument's source slice with its first
and last code unit removed, a dynamic one stores the raw slice.
Non-call nodes never yield a descriptor. -/
theorem C6_require_site_classification (source : String) :
    (∀ callee args rng, ¬(isRequireCallee callee = true ∧ args.length = 1) →
      requireSite source (.callExpr callee args rng) = none)
    ∧ (∀ callee arg rng, isRequireCallee callee = true →
        requireSite source (.callExpr callee [arg] rng)
          = some
            ((if arg.typeName == "Literal" then
                jsSubstring (grabSource source arg.range) 1
                  ((grabSource source arg.range).length - 1)
              else grabSource source arg.range),
              (arg.typeName == "Literal"),
              ⟨grabSource source rng, rng.1, rng.2⟩))
    ∧ (∀ n, (∀ callee args rng, n ≠ .callExpr callee args rng) →
        requireSite source n = none) := by
  refine ⟨?_, ?_, ?_⟩
  · intro callee args rng h
    by_cases hc : isRequireCallee callee = true
    · have hl : args.length ≠ 1 := by
        intro hlen
        exact h ⟨hc, hlen⟩
      simp [requireSite, hl]
    · simp [requireSite, hc]
  · intro callee arg rng hc
    simp [requireSite, hc]
  · intro n h
    cases n with
    | callExpr callee args rng => exact absurd rfl (h callee args rng)
    | _ => rfl

/-- C6 counterexample: `require(42)` — the single argument is a
`Literal` node whose raw source `42` does not begin with a quote (it
is not a string-literal node), yet the scanner classifies the site as
*static* and stores the first-and-last-stripped slice `""`, not a
dynamic descriptor with the raw slice `42` as the claim states. -/
theorem C6_counterexample :
    requireSite "require(42)"
        (.callExpr (.identifier "require" (0, 7)) [.literal (8, 10)] (0, 11))
      = some ("", true, ⟨"require(42)", 0, 11⟩)
    ∧ isStringLiteralNode "require(42)" (.literal (8, 10)) = false :=
  ⟨by decide, by decide⟩

/-- C6 witness: a string-literal `require('./a')` yields a static
descriptor with the quotes stripped. -/
theorem C6_witness :
    requireSite "require('./a')"
        (.callExpr (.identifier "require" (0, 7)) [.literal (8, 13)] (0, 14))
      = some ("./a", true, ⟨"require('./a')", 0, 14⟩) := by
  rw [(C6_require_site_classification "require('./a')").2.1
    (.identifier "require" (0, 7)) (.literal (8, 13)) (0, 14) (by decide)]
  decide

/-- C8 (code bug): the walker's `SwitchStatement` arm reads
`nodes.cases` and its `TryStatement` arm reads `nodes.block` — the
queue, not the node — so switch cases and try blocks are never
enqueued.  On `switch(x){case 0:require('./a');}` and on
`try{require('./a')}catch(e){}` the scanner produces no descriptor
although the tree contains exactly one require call; a require call
inside a nested function expression *is* found. -/
theorem C8_walker_bug_evaluation :
    Required.analyze "switch(x)\x7bcase 0:require('./a');\x7d"
        (.program [.switchStmt (.identifier "x" (7, 8))
          [.switchCase (some (.literal (15, 16)))
            [.exprStmt (.callExpr (.identifier "require" (17, 24))
              [.literal (25, 30)] (17, 31)) (17, 32)] (10, 32)] (0, 33)] (0, 33))
      = []
    ∧ (allCalls (.program [.switchStmt (.identifier "x" (7, 8))
          [.switchCase (some (.literal (15, 16)))
            [.exprStmt (.callExpr (.identifier "require" (17, 24))
              [.literal (25, 30)] (17, 31)) (17, 32)] (10, 32)] (0, 33)] (0, 33))).length
        = 1
    ∧ Required.analyze "try\x7brequire('./a')\x7dcatch(e)\x7b\x7d"
        (.program [.tryStmt
          (.blockStmt [.exprStmt (.callExpr (.identifier "require" (4, 11))
            [.literal (12, 17)] (4, 18)) (4, 18)] (3, 19))
          (some (.catchClause (.identifier "e" (25, 26)) (.blockStmt [] (27, 29))
            (19, 29)))
          none (0, 29)] (0, 29))
      = []
    ∧ (allCalls (.program [.tryStmt
          (.blockStmt [.exprStmt (.callExpr (.identifier "require" (4, 11))
            [.literal (12, 17)] (4, 18)) (4, 18)] (3, 19))
          (some (.catchClause (.identifier "e" (25, 26)) (.blockStmt [] (27, 29))
            (19, 29)))
          none (0, 29)] (0, 29))).length
        = 1
    ∧ Required.analyze "(function()\x7brequire('./a')\x7d)"
        (.program [.exprStmt (.funcExpr none [] (.blockStmt
          [.exprStmt (.callExpr (.identifier "require" (12, 19))
            [.literal (20, 25)] (12, 26)) (12, 26)] (11, 27)) (1, 27)) (0, 28)]
          (0, 28))
      = [⟨"./a", true, [⟨"require('./a')", 12, 26⟩]⟩] := by
  refine ⟨by decide, by decide, by decide, by decide, by decide⟩

theorem alookup_isSome_iff {α β : Type} [DecidableEq α] (l : List (α × β)) (a : α) :
    (alookup l a).isSome ↔ a ∈ l.map Prod.fst := by
  induction l with
  | nil => simp [alookup]
  | cons e l ih =>
    obtain ⟨k, v⟩ := e
    by_cases hk : k = a
    · subst hk
      simp [alookup]
    · simp [alookup, hk, ih]
      intro h
      exact absurd h.symm hk

theorem updAssoc_map_fst {α β : Type} [DecidableEq α] (l : List (α × β)) (p : α)
    (g : β → β) : (updAssoc l p g).map Prod.fst = l.map Prod.fst := by
  induction l with
  | nil => rfl
  | cons e l ih =>
    obtain ⟨k, v⟩ := e
    by_cases hk : k = p <;> simp [updAssoc, hk, ih]

theorem mem_dedupFirstAux (l : List String) :
    ∀ (seen : List String) (x : String),
      x ∈ dedupFirstAux seen l ↔ x ∈ l ∧ x ∉ seen := by
  induction l with
  | nil => simp [dedupFirstAux]
  | cons s t ih =>
    intro seen x
    by_cases hs : s ∈ seen
    · simp only [dedupFirstAux, hs, if_true, ih]
      constructor
      · rintro ⟨hx, hns⟩
        exact ⟨List.mem_cons_of_mem s hx, hns⟩
      · rintro ⟨hx, hns⟩
        rcases List.mem_cons.mp hx with he | ht
        · subst he
          exact absurd hs hns
        · exact ⟨ht, hns⟩
    · simp only [dedupFirstAux, hs, if_false, List.mem_cons, ih, List.mem_append,
        List.mem_singleton]
      constructor
      · rintro (he | ⟨ht, hns⟩)
        · subst he
          exact ⟨Or.inl rfl, hs⟩
        · exact ⟨Or.inr ht, fun hsn => hns (Or.inl hsn)⟩
      · rintro ⟨he | ht, hns⟩
        · exact Or.inl he
        · by_cases hxs : x = s
          · exact Or.inl hxs
          · exact Or.inr ⟨ht, fun hc => (by
              rcases hc with h1 | h2 | h3
              · exact hns h1
              · exact hxs h2
              · exact absurd h3 (List.not_mem_nil x))⟩

theorem dedupFirstAux_snoc (l : List String) :
    ∀ (seen : List String) (p : String),
      dedupFirstAux seen (l ++ [p])
        = dedupFirstAux seen l ++ (if p ∈ seen ∨ p ∈ l then [] else [p]) := by
  induction l with
  | nil =>
    intro seen p
    by_cases hp : p ∈ seen <;> simp [dedupFirstAux, hp]
  | cons s t ih =>
    intro seen p
    by_cases hs : s ∈ seen
    · have h1 : dedupFirstAux seen ((s :: t) ++ [p]) = dedupFirstAux seen (t ++ [p]) := by
        simp [dedupFirstAux, hs]
      have h2 : dedupFirstAux seen (s :: t) = dedupFirstAux seen t := by
        simp [dedupFirstAux, hs]
      have hiff : (p ∈ seen ∨ p ∈ s :: t) ↔ (p ∈ seen ∨ p ∈ t) := by
        constructor
        · rintro (h | h)
          · exact Or.inl h
          · rcases List.mem_cons.mp h with he | ht
            · subst he
              exact Or.inl hs
            · exact Or.inr ht
        · rintro (h | h)
          · exact Or.inl h
          · exact Or.inr (List.mem_cons_of_mem s h)
      rw [h1, h2, ih seen p, if_congr hiff rfl rfl]
    · have h1 : dedupFirstAux seen ((s :: t) ++ [p])
          = s :: dedupFirstAux (seen ++ [s]) (t ++ [p]) := by
        simp [dedupFirstAux, hs]
      have h2 : dedupFirstAux seen (s :: t) = s :: dedupFirstAux (seen ++ [s]) t := by
        simp [dedupFirstAux, hs]
      have hiff : (p ∈ seen ++ [s] ∨ p ∈ t) ↔ (p ∈ seen ∨ p ∈ s :: t) := by
        constructor
        · rintro (h | h)
          · rcases List.mem_append.mp h with h1 | h1
            · exact Or.inl h1
            · exact Or.inr (List.mem_cons.mpr (Or.inl (List.mem_singleton.mp h1)))
          · exact Or.inr (List.mem_cons_of_mem s h)
        · rintro (h | h)
          · exact Or.inl (List.mem_append.mpr (Or.inl h))
          · rcases List.mem_cons.mp h with he | ht
            · subst he
              exact Or.inl (List.mem_append.mpr (Or.inr (List.mem_singleton.mpr rfl)))
            · exact Or.inr ht
      rw [h1, h2, ih (seen ++ [s]) p, if_congr hiff rfl rfl, List.cons_append]

theorem nodup_dedupFirstAux (l : List String) :
    ∀ seen : List String, (dedupFirstAux seen l).Nodup := by
  induction l with
  | nil => intro seen; simp [dedupFirstAux]
  | cons s t ih =>
    intro seen
    by_cases hs : s ∈ seen
    · simpa [dedupFirstAux, hs] using ih seen
    · simp only [dedupFirstAux, hs, if_false, List.nodup_cons]
      refine ⟨?_, ih (seen ++ [s])⟩
      intro hc
      rcases (mem_dedupFirstAux t (seen ++ [s]) s).mp hc with ⟨_, hns⟩
      exact hns (List.mem_append.mpr (Or.inr (List.mem_singleton.mpr rfl)))

theorem insertAsc_perm {β : Type} (x : String × β) (l : List (String × β)) :
    List.Perm (insertAsc x l) (x :: l) := by
  induction l with
  | nil => simp [insertAsc]
  | cons y ys ih =>
    by_cases h : keyNat x.1 ≤ keyNat y.1
    · simp [insertAsc, h]
    · simp only [insertAsc, h, if_false]
      exact (ih.cons y).trans (List.Perm.swap x y ys)

theorem sortByKeyNat_perm {β : Type} (l : List (String × β)) :
    List.Perm (sortByKeyNat l) l := by
  induction l with
  | nil => simp [sortByKeyNat]
  | cons x xs ih =>
    simp only [sortByKeyNat, List.foldr_cons]
    exact (insertAsc_perm x _).trans (ih.cons x)

theorem jsKeyOrder_perm {β : Type} (l : List (String × β)) :
    List.Perm (jsKeyOrder l) l := by
  unfold jsKeyOrder
  exact ((sortByKeyNat_perm _).append_right _).trans
    (List.filter_append_perm (fun e => isArrayIndexKey e.1) l)

theorem insertAsc_map_fst {β : Type} (x : String × β) (l : List (String × β)) :
    (insertAsc x l).map Prod.fst = insertAscKey x.1 (l.map Prod.fst) := by
  induction l with
  | nil => simp [insertAsc, insertAscKey]
  | cons y ys ih =>
    by_cases h : keyNat x.1 ≤ keyNat y.1 <;>
      simp [insertAsc, insertAscKey, h, ih]

theorem sortByKeyNat_map_fst {β : Type} (l : List (String × β)) :
    (sortByKeyNat l).map Prod.fst = sortKeysAsc (l.map Prod.fst) := by
  induction l with
  | nil => simp [sortByKeyNat, sortKeysAsc]
  | cons x xs ih =>
    simp only [sortByKeyNat, sortKeysAsc, List.foldr_cons, List.map_cons] at ih ⊢
    rw [insertAsc_map_fst, ih]

theorem filter_fst_map {β : Type} (P : String → Bool) (l : List (String × β)) :
    (l.filter (fun e => P e.1)).map Prod.fst = (l.map Prod.fst).filter P := by
  induction l with
  | nil => rfl
  | cons e l ih =>
    by_cases h : P e.1 <;> simp [List.filter_cons, h, ih]

theorem jsKeyOrder_map_fst {β : Type} (l : List (String × β)) :
    (jsKeyOrder l).map Prod.fst = jsEnumKeysOrder (l.map Prod.fst) := by
  unfold jsKeyOrder jsEnumKeysOrder
  rw [List.map_append, sortByKeyNat_map_fst, filter_fst_map isArrayIndexKey,
    filter_fst_map (fun k => !isArrayIndexKey k)]

theorem alookup_of_mem_nodup {α β : Type} [DecidableEq α] (l : List (α × β))
    (hn : (l.map Prod.fst).Nodup) (e : α × β) (he : e ∈ l) :
    alookup l e.1 = some e.2 := by
  induction l with
  | nil => exact absurd he (List.not_mem_nil e)
  | cons f l ih =>
    obtain ⟨k, v⟩ := f
    simp only [List.map_cons, List.nodup_cons] at hn
    rcases List.mem_cons.mp he with hef | hel
    · subst hef
      simp [alookup]
    · have hne : k ≠ e.1 := by
        intro hc
        apply hn.1
        subst hc
        exact List.mem_map.mpr ⟨e, hel, rfl⟩
      simp only [alookup, hne, if_false]
      exact ih hn.2 hel

theorem filter_keys_nil {β : Type} (l : List (String × β)) (a : String)
    (h : a ∉ l.map Prod.fst) : l.filter (fun e => e.1 == a) = [] := by
  induction l with
  | nil => rfl
  | cons e l ih =>
    simp only [List.map_cons, List.mem_cons, not_or] at h
    have hne : e.1 ≠ a := fun hc => h.1 hc.symm
    simp [List.filter_cons, hne, ih h.2]

theorem insertAscKey_perm (x : String) (l : List String) :
    List.Perm (insertAscKey x l) (x :: l) := by
  induction l with
  | nil => simp [insertAscKey]
  | cons y ys ih =>
    by_cases h : keyNat x ≤ keyNat y
    · simp [insertAscKey, h]
    · simp only [insertAscKey, h, if_false]
      exact (ih.cons y).trans (List.Perm.swap x y ys)

theorem sortKeysAsc_perm (l : List String) : List.Perm (sortKeysAsc l) l := by
  induction l with
  | nil => simp [sortKeysAsc]
  | cons x xs ih =>
    simp only [sortKeysAsc, List.foldr_cons]
    exact (insertAscKey_perm x _).trans (ih.cons x)

theorem jsEnumKeysOrder_perm (ks : List String) :
    List.Perm (jsEnumKeysOrder ks) ks := by
  unfold jsEnumKeysOrder
  exact ((sortKeysAsc_perm _).append_right _).trans
    (List.filter_append_perm isArrayIndexKey ks)

theorem foldTrack_invariant (source : String) :
    ∀ (ns : List JsNode) (pre : List (String × Bool × Reference))
      (acc : List (String × Requirement)),
      (∀ k r, alookup acc k = some r → r.path = k) →
      acc.map Prod.fst = dedupFirst (pre.map (·.1)) →
      (∀ k r, alookup acc k = some r →
        r.references = (pre.filter (fun occ => occ.1 == k)).map (fun occ => occ.2.2)) →
      (∀ k r, alookup (ns.foldl (trackRequirement source) acc) k = some r → r.path = k)
      ∧ (ns.foldl (trackRequirement source) acc).map Prod.fst
          = dedupFirst ((pre ++ ns.filterMap (requireSite source)).map (·.1))
      ∧ (∀ k r, alookup (ns.foldl (trackRequirement source) acc) k = some r →
          r.references = ((pre ++ ns.filterMap (requireSite source)).filter
            (fun occ => occ.1 == k)).map (fun occ => occ.2.2)) := by
  intro ns
  induction ns with
  | nil =>
    intro pre acc h1 h2 h3
    simpa using ⟨h1, h2, h3⟩
  | cons n ns ih =>
    intro pre acc h1 h2 h3
    rcases hsite : requireSite source n with _ | ⟨p, st, ref⟩
    · have hstep : trackRequirement source acc n = acc := by
        simp [trackRequirement, hsite]
      simp only [List.foldl_cons, hstep, List.filterMap_cons, hsite]
      exact ih pre acc h1 h2 h3
    · have hstep : trackRequirement source acc n = upsertRequirement acc p st ref := by
        simp [trackRequirement, hsite]
      simp only [List.foldl_cons, hstep, List.filterMap_cons, hsite]
      have hassoc : pre ++ (p, st, ref) :: ns.filterMap (requireSite source)
          = (pre ++ [(p, st, ref)]) ++ ns.filterMap (requireSite source) := by
        simp
      rw [hassoc]
      have hfsnoc : ∀ q : String,
          ((pre ++ [(p, st, ref)]).filter (fun occ => occ.1 == q))
            = pre.filter (fun occ => occ.1 == q)
              ++ if p = q then [(p, st, ref)] else [] := by
        intro q
        rw [List.filter_append]
        by_cases hpq : p = q <;> simp [List.filter_cons, hpq]
      have hkeysnoc : dedupFirst ((pre ++ [(p, st, ref)]).map (·.1))
          = dedupFirst (pre.map (·.1))
            ++ if p ∈ pre.map (·.1) then [] else [p] := by
        simp only [List.map_append, List.map_cons, List.map_nil, dedupFirst]
        rw [dedupFirstAux_snoc]
        by_cases hp : p ∈ pre.map (·.1)
        · rw [if_pos (Or.inr hp : p ∈ ([] : List String) ∨ p ∈ pre.map (·.1)),
            if_pos hp]
        · have hno : ¬ (p ∈ ([] : List String) ∨ p ∈ pre.map (·.1)) := by
            rintro (hc | hc)
            · exact absurd hc (List.not_mem_nil p)
            · exact hp hc
          rw [if_neg hno, if_neg hp]
      by_cases hmem : (alookup acc p).isSome
      · -- existing descriptor: a reference is appended
        have hup : upsertRequirement acc p st ref
            = updAssoc acc p (fun r => { r with references := r.references ++ [ref] }) := by
          simp [upsertRequirement, hmem]
        have hpkeys : p ∈ pre.map (·.1) := by
          have hp1 : p ∈ acc.map Prod.fst := (alookup_isSome_iff acc p).mp hmem
          rw [h2] at hp1
          exact ((mem_dedupFirstAux _ [] p).mp hp1).1
        refine ih (pre ++ [(p, st, ref)]) _ ?_ ?_ ?_
        · intro k r hk
          rw [hup, updAssoc_alookup] at hk
          by_cases hkp : k = p
          · rw [if_pos hkp] at hk
            rcases ha : alookup acc k with _ | r0
            · rw [ha] at hk
              exact Option.noConfusion hk
            · rw [ha] at hk
              replace hk := Option.some.inj hk
              rw [← hk]
              exact h1 k r0 ha
          · rw [if_neg hkp] at hk
            exact h1 k r hk
        · rw [hup, updAssoc_map_fst, h2, hkeysnoc, if_pos hpkeys, List.append_nil]
        · intro k r hk
          rw [hup, updAssoc_alookup] at hk
          rw [hfsnoc k]
          by_cases hkp : k = p
          · subst hkp
            rw [if_pos rfl] at hk
            rcases ha : alookup acc k with _ | r0
            · rw [ha] at hk
              exact Option.noConfusion hk
            · rw [ha] at hk
              replace hk := Option.some.inj hk
              rw [← hk]
              rw [if_pos rfl]
              simp [h3 k r0 ha]
          · rw [if_neg hkp] at hk
            rw [if_neg (fun hc => hkp hc.symm)]
            simp [h3 k r hk]
      · -- new descriptor appended at the end
        have hup : upsertRequirement acc p st ref
            = acc ++ [(p, ⟨p, st, [ref]⟩)] := by
          simp [upsertRequirement, hmem]
        have hpacc : p ∉ acc.map Prod.fst := by
          intro hc
          exact hmem ((alookup_isSome_iff acc p).mpr hc)
        have hpkeys : p ∉ pre.map (·.1) := by
          intro hc
          apply hpacc
          rw [h2]
          exact (mem_dedupFirstAux _ [] p).mpr ⟨hc, List.not_mem_nil p⟩
        refine ih (pre ++ [(p, st, ref)]) _ ?_ ?_ ?_
        · intro k r hk
          rw [hup, alookup_append] at hk
          rcases ha : alookup acc k with _ | r0
          · rw [ha] at hk
            simp only [alookup] at hk
            by_cases hkp : p = k
            · rw [if_pos hkp] at hk
              replace hk := Option.some.inj hk
              rw [← hk]
              exact hkp
            · rw [if_neg hkp] at hk
              exact Option.noConfusion hk
          · rw [ha] at hk
            replace hk := Option.some.inj hk
            rw [← hk]
            exact h1 k r0 ha
        · rw [hup, List.map_append, h2, hkeysnoc, if_neg hpkeys]
          rfl
        · intro k r hk
          rw [hup, alookup_append] at hk
          rw [hfsnoc k]
          rcases ha : alookup acc k with _ | r0
          · rw [ha] at hk
            simp only [alookup] at hk
            by_cases hkp : p = k
            · rw [if_pos hkp] at hk
              replace hk := Option.some.inj hk
              subst hkp
              rw [← hk]
              rw [if_pos rfl]
              rw [filter_keys_nil pre p (by simpa using hpkeys)]
              simp
            · rw [if_neg hkp] at hk
              exact Option.noConfusion hk
          · rw [ha] at hk
            replace hk := Option.some.inj hk
            rw [← hk]
            have hkp : ¬ p = k := by
              intro hc
              subst hc
              exact hpacc ((alookup_isSome_iff acc p).mp (by simp [ha]))
            rw [if_neg hkp]
            simp [h3 k r0 ha]

/-- C7 (amended): within one file, descriptors are unique by exact
textual path; every call site with the same stored path folds into one
descriptor whose reference list gains one `Reference` per occurrence
in visit order; and descriptors appear in the output in JavaScript
object-key enumeration order over the first-sighting key list —
first-sighting order *except* that array-index-like stored paths
(canonical integer strings) are enumerated first, in ascending numeric
order. -/
theorem C7_descriptor_folding (source : String) (ast : JsNode) :
    ((Required.analyze source ast).map (·.path)).Nodup
    ∧ (∀ d ∈ Required.analyze source ast,
        d.references = refsForPath source ast d.path)
    ∧ (Required.analyze source ast).map (·.path)
        = jsEnumKeysOrder (dedupFirst ((requireOccurrences source ast).map (·.1))) := by
  obtain ⟨h1, h2, h3⟩ := foldTrack_invariant source (walkList [ast]) [] []
    (fun k r hk => Option.noConfusion hk) rfl
    (fun k r hk => Option.noConfusion hk)
  simp only [List.nil_append] at h2 h3
  have hreq : Required.analyze source ast
      = (jsKeyOrder ((walkList [ast]).foldl (trackRequirement source) [])).map (·.2) :=
    rfl
  have hocc : (walkList [ast]).filterMap (requireSite source)
      = requireOccurrences source ast := rfl
  rw [hocc] at h2 h3
  have hnodupkeys :
      (((walkList [ast]).foldl (trackRequirement source) []).map Prod.fst).Nodup := by
    rw [h2]
    exact nodup_dedupFirstAux _ []
  have hpath : ∀ e ∈ (walkList [ast]).foldl (trackRequirement source) [],
      e.2.path = e.1 := fun e he =>
    h1 e.1 e.2 (alookup_of_mem_nodup _ hnodupkeys e he)
  have hmapeq : (Required.analyze source ast).map (·.path)
      = jsEnumKeysOrder (dedupFirst ((requireOccurrences source ast).map (·.1))) := by
    rw [hreq, List.map_map]
    have hcongr :
        (jsKeyOrder ((walkList [ast]).foldl (trackRequirement source) [])).map
            ((fun r : Requirement => r.path) ∘ (fun e => e.2))
          = (jsKeyOrder ((walkList [ast]).foldl (trackRequirement source) [])).map
              Prod.fst := by
      apply List.map_congr_left
      intro e he
      exact hpath e ((jsKeyOrder_perm _).mem_iff.mp he)
    rw [hcongr, jsKeyOrder_map_fst, h2]
  refine ⟨?_, ?_, hmapeq⟩
  · rw [hmapeq]
    exact ((jsEnumKeysOrder_perm _).nodup_iff).mpr (nodup_dedupFirstAux _ [])
  · intro d hd
    rw [hreq] at hd
    obtain ⟨e, he, rfl⟩ := List.mem_map.mp hd
    have he' : e ∈ (walkList [ast]).foldl (trackRequirement source) [] :=
      (jsKeyOrder_perm _).mem_iff.mp he
    have halk := alookup_of_mem_nodup _ hnodupkeys e he'
    have := h3 e.1 e.2 halk
    rw [refsForPath, hpath e he']
    exact this

/-- C7 counterexample: in `require('./a');require('0')` the stored
path `"0"` is an array-index property key, so JavaScript `for-in`
enumeration yields it *before* `"./a"`, breaking pure first-sighting
order (the occurrence order is `["./a", "0"]`). -/
theorem C7_counterexample :
    (Required.analyze "require('./a');require('0')"
        (.program [
          .exprStmt (.callExpr (.identifier "require" (0, 7)) [.literal (8, 13)]
            (0, 14)) (0, 15),
          .exprStmt (.callExpr (.identifier "require" (15, 22)) [.literal (23, 26)]
            (15, 27)) (15, 27)] (0, 27))).map (·.path)
      = ["0", "./a"]
    ∧ (requireOccurrences "require('./a');require('0')"
        (.program [
          .exprStmt (.callExpr (.identifier "require" (0, 7)) [.literal (8, 13)]
            (0, 14)) (0, 15),
          .exprStmt (.callExpr (.identifier "require" (15, 22)) [.literal (23, 26)]
            (15, 27)) (15, 27)] (0, 27))).map (·.1)
      = ["./a", "0"] :=
  ⟨by decide, by decide⟩

/-- C7 witness: two textually identical `require('./a')` call sites
fold into one descriptor carrying both references in source order. -/
theorem C7_witness :
    (⟨"./a", true, [⟨"require('./a')", 0, 14⟩, ⟨"require('./a')", 15, 29⟩]⟩
        : Requirement).references
      = refsForPath "require('./a');require('./a')"
          (.program [
            .exprStmt (.callExpr (.identifier "require" (0, 7)) [.literal (8, 13)]
              (0, 14)) (0, 15),
            .exprStmt (.callExpr (.identifier "require" (15, 22)) [.literal (23, 28)]
              (15, 29)) (15, 29)] (0, 29))
          (⟨"./a", true, [⟨"require('./a')", 0, 14⟩, ⟨"require('./a')", 15, 29⟩]⟩
            : Requirement).path :=
  (C7_descriptor_folding "require('./a');require('./a')"
      (.program [
        .exprStmt (.callExpr (.identifier "require" (0, 7)) [.literal (8, 13)]
          (0, 14)) (0, 15),
        .exprStmt (.callExpr (.identifier "require" (15, 22)) [.literal (23, 28)]
          (15, 29)) (15, 29)] (0, 29))).2.1
    ⟨"./a", true, [⟨"require('./a')", 0, 14⟩, ⟨"require('./a')", 15, 29⟩]⟩
    (by decide)

/-! ## Grapher lemmas -/

theorem rr_nil (env : GEnv) (fuel : Nat) (st : GState) (p : String) :
    Dependencies.resolveRequirements env fuel st p [] = .done st := by
  rw [Dependencies.resolveRequirements]

theorem rr_dyn (env : GEnv) (fuel : Nat) (st : GState) (p : String)
    (requirement : Requirement) (rest : List Requirement)
    (h : requirement.static = false) :
    Dependencies.resolveRequirements env fuel st p (requirement :: rest)
      = Dependencies.resolveRequirements env fuel
          (pushDep st p ⟨requirement.path, requirement.static,
            requirement.references, none,
            some "Unable to resolve dynamic dependency"⟩) p rest := by
  conv_lhs => rw [Dependencies.resolveRequirements]
  simp only [h, if_true]

theorem rr_cacheHit (env : GEnv) (fuel : Nat) (st : GState) (p : String)
    (requirement : Requirement) (rest : List Requirement)
    (cacheResult : Option String × Option String)
    (h : requirement.static = true)
    (hc : alookup st.dirCache (jsDirname p, requirement.path) = some cacheResult) :
    Dependencies.resolveRequirements env fuel st p (requirement :: rest)
      = Dependencies.resolveRequirements env fuel
          (pushDep st p ⟨requirement.path, requirement.static,
            requirement.references, cacheResult.1, cacheResult.2⟩) p rest := by
  conv_lhs => rw [Dependencies.resolveRequirements]
  simp [h, hc]

theorem rr_resolved (env : GEnv) (fuel : Nat) (st : GState) (p : String)
    (requirement : Requirement) (rest : List Requirement) (dependent : String)
    (h : requirement.static = true)
    (hc : alookup st.dirCache (jsDirname p, requirement.path) = none)
    (hr : resolveOf env requirement.path (jsDirname p) = some dependent) :
    Dependencies.resolveRequirements env fuel st p (requirement :: rest)
      = (match Dependencies.analyze env fuel
            (pushDep
              (cacheDirResult (cacheFileRecord st dependent) (jsDirname p)
                requirement.path (some dependent, none))
              p
              ⟨requirement.path, requirement.static, requirement.references,
                some dependent, none⟩)
            ⟨dependent, true, false⟩ with
        | .done st4 => Dependencies.resolveRequirements env fuel st4 p rest
        | r => r) := by
  conv_lhs => rw [Dependencies.resolveRequirements]
  simp [h, hc, hr]

theorem rr_unresolved (env : GEnv) (fuel : Nat) (st : GState) (p : String)
    (requirement : Requirement) (rest : List Requirement)
    (h : requirement.static = true)
    (hc : alookup st.dirCache (jsDirname p, requirement.path) = none)
    (hr : resolveOf env requirement.path (jsDirname p) = none) :
    Dependencies.resolveRequirements env fuel st p (requirement :: rest)
      = Dependencies.resolveRequirements env fuel
          (pushDep
            (cacheDirResult st (jsDirname p) requirement.path
              (none, some "Unable to locate dependency"))
            p
            ⟨requirement.path, requirement.static, requirement.references,
              none, some "Unable to locate dependency"⟩) p rest := by
  conv_lhs => rw [Dependencies.resolveRequirements]
  simp [h, hc, hr]

theorem an_noCb (env : GEnv) (fuel : Nat) (st : GState) (file : VFile)
    (h : file.isVinylRec = false ∨ file.nullContents = true) :
    Dependencies.analyze env fuel st file = .noCb := by
  rw [Dependencies.analyze.eq_def]
  rcases h with h | h <;> simp [h]

theorem an_marked (env : GEnv) (fuel : Nat) (st : GState) (file : VFile)
    (hv : file.isVinylRec = true) (hn : file.nullContents = false)
    (hm : (alookup st.deps file.path).isSome) :
    Dependencies.analyze env fuel st file = .done st := by
  rw [Dependencies.analyze.eq_def]
  simp [hv, hn, hm]

theorem an_zero_unmarked (env : GEnv) (st : GState) (file : VFile)
    (hv : file.isVinylRec = true) (hn : file.nullContents = false)
    (hm : ¬ (alookup st.deps file.path).isSome) :
    Dependencies.analyze env 0 st file = .fuelOut := by
  rw [Dependencies.analyze.eq_def]
  simp [hv, hn, hm]

theorem an_unmarked (env : GEnv) (f : Nat) (st : GState) (file : VFile)
    (hv : file.isVinylRec = true) (hn : file.nullContents = false)
    (hm : ¬ (alookup st.deps file.path).isSome) :
    Dependencies.analyze env (f + 1) st file
      = Dependencies.resolveRequirements env f (markDeps st file.path) file.path
          (scanOf env file.path) := by
  conv_lhs => rw [Dependencies.analyze.eq_def]
  simp [hv, hn, hm]

theorem alookup_mem {α β : Type} [DecidableEq α] (l : List (α × β)) (a : α) (b : β)
    (h : alookup l a = some b) : (a, b) ∈ l := by
  induction l with
  | nil => exact Option.noConfusion h
  | cons e l ih =>
    obtain ⟨k, v⟩ := e
    by_cases hk : k = a
    · subst hk
      simp only [alookup, if_pos rfl] at h
      replace h := Option.some.inj h
      subst h
      exact List.mem_cons_self _ _
    · simp only [alookup, hk, if_false] at h
      exact List.mem_cons_of_mem _ (ih h)

theorem alookup_markDeps (st : GState) (p q : String) :
    alookup (markDeps st p).deps q
      = match alookup st.deps q with
        | some l => some l
        | none => if p = q then some [] else none := by
  show alookup (st.deps ++ [(p, [])]) q = _
  rw [alookup_append]
  rcases alookup st.deps q with _ | l <;> simp [alookup]

theorem markedLE_refl (st : GState) : markedLE st st := fun _ h => h

theorem markedLE_trans {s1 s2 s3 : GState} (h1 : markedLE s1 s2)
    (h2 : markedLE s2 s3) : markedLE s1 s3 := fun q h => h2 q (h1 q h)

theorem markedLE_markDeps (st : GState) (p : String) :
    markedLE st (markDeps st p) := by
  intro q h
  rw [alookup_markDeps]
  rcases hq : alookup st.deps q with _ | l
  · rw [hq] at h
    simp at h
  · simp

theorem marked_markDeps_self (st : GState) (p : String) :
    (alookup (markDeps st p).deps p).isSome := by
  rw [alookup_markDeps]
  rcases hq : alookup st.deps p with _ | l <;> simp

theorem pushDep_deps_none_iff (st : GState) (p : String) (d : DepRecord) (q : String) :
    alookup (pushDep st p d).deps q = none ↔ alookup st.deps q = none := by
  show alookup (updAssoc st.deps p (fun l => l ++ [d])) q = none ↔ _
  rw [updAssoc_alookup]
  by_cases hq : q = p
  · rw [if_pos hq]
    rcases alookup st.deps q with _ | l <;> simp
  · rw [if_neg hq]

theorem markedLE_pushDep (st : GState) (p : String) (d : DepRecord) :
    markedLE st (pushDep st p d) := by
  intro q h
  rcases hq : alookup (pushDep st p d).deps q with _ | l
  · rw [(pushDep_deps_none_iff st p d q).mp hq] at h
    simp at h
  · simp

theorem deps_cacheFileRecord (st : GState) (x : String) :
    (cacheFileRecord st x).deps = st.deps := rfl

theorem deps_cacheDirResult (st : GState) (dir p : String)
    (out : Option String × Option String) :
    (cacheDirResult st dir p out).deps = st.deps := rfl

theorem filterLength_le {α : Type} (P Q : α → Bool) (l : List α)
    (h : ∀ x ∈ l, Q x = true → P x = true) :
    (l.filter Q).length ≤ (l.filter P).length := by
  induction l with
  | nil => simp
  | cons a l ih =>
    have ih' := ih (fun x hx => h x (List.mem_cons_of_mem a hx))
    by_cases hq : Q a = true
    · have hp := h a (List.mem_cons_self a l) hq
      simp [List.filter_cons, hq, hp]
      omega
    · by_cases hp : P a = true <;>
        simp [List.filter_cons, hq, hp] <;> omega

theorem filterLength_lt {α : Type} (P Q : α → Bool) (l : List α) (x₀ : α)
    (hx : x₀ ∈ l) (hP : P x₀ = true) (hQ : Q x₀ = false)
    (h : ∀ x ∈ l, Q x = true → P x = true) :
    (l.filter Q).length < (l.filter P).length := by
  induction l with
  | nil => exact absurd hx (List.not_mem_nil x₀)
  | cons a l ih =>
    rcases List.mem_cons.mp hx with he | hm
    · subst he
      have hle := filterLength_le P Q l (fun x hxl => h x (List.mem_cons_of_mem x₀ hxl))
      simp [List.filter_cons, hQ, hP]
      omega
    · have ih' := ih hm (fun x hxl => h x (List.mem_cons_of_mem a hxl))
      by_cases hq : Q a = true
      · have hp := h a (List.mem_cons_self a l) hq
        simp [List.filter_cons, hq, hp]
        omega
      · by_cases hp : P a = true <;>
          simp [List.filter_cons, hq, hp] <;> omega

theorem unmarked_le_of_markedLE (env : GEnv) {st st' : GState}
    (h : markedLE st st') : unmarkedCount env st' ≤ unmarkedCount env st := by
  apply filterLength_le
  intro x _ hQ
  simp only [decide_eq_true_eq] at hQ ⊢
  by_contra hc
  have hs : (alookup st.deps x).isSome := Option.ne_none_iff_isSome.mp hc
  have := h x hs
  rw [hQ] at this
  simp at this

theorem unmarked_lt_markDeps (env : GEnv) (st : GState) (p : String)
    (hp : p ∈ env.files) (hm : alookup st.deps p = none) :
    unmarkedCount env (markDeps st p) < unmarkedCount env st := by
  apply filterLength_lt _ _ _ p hp
  · simp [hm]
  · have hs := marked_markDeps_self st p
    rcases hq : alookup (markDeps st p).deps p with _ | l
    · rw [hq] at hs
      simp at hs
    · simp [hq]
  · intro x _ hQ
    simp only [decide_eq_true_eq] at hQ ⊢
    by_contra hc
    have hs : (alookup st.deps x).isSome := Option.ne_none_iff_isSome.mp hc
    have := markedLE_markDeps st p x hs
    rw [hQ] at this
    simp at this

theorem unmarked_pushDep (env : GEnv) (st : GState) (p : String) (d : DepRecord) :
    unmarkedCount env (pushDep st p d) = unmarkedCount env st := by
  unfold unmarkedCount
  congr 1
  apply List.filter_congr
  intro x _
  simp [pushDep_deps_none_iff]

theorem unmarked_pos_of_unmarked_mem (env : GEnv) (st : GState) (q : String)
    (hq : q ∈ env.files) (hm : alookup st.deps q = none) :
    1 ≤ unmarkedCount env st := by
  have hmem : q ∈ env.files.filter (fun x => alookup st.deps x = none) :=
    List.mem_filter.mpr ⟨hq, by simp [hm]⟩
  exact List.length_pos_of_mem hmem

theorem rr_of_an (env : GEnv) (hres : resolveClosed env) (f : Nat)
    (han : ∀ (st : GState) (q : String), q ∈ env.files →
      unmarkedCount env st ≤ f →
      ∃ st', Dependencies.analyze env f st ⟨q, true, false⟩ = .done st'
        ∧ markedLE st st') :
    ∀ (reqs : List Requirement) (st : GState) (p : String),
      unmarkedCount env st ≤ f →
      ∃ st', Dependencies.resolveRequirements env f st p reqs = .done st'
        ∧ markedLE st st' := by
  intro reqs
  induction reqs with
  | nil =>
    intro st p hcount
    exact ⟨st, rr_nil env f st p, markedLE_refl st⟩
  | cons requirement rest ih =>
    intro st p hcount
    by_cases hst : requirement.static = false
    · rw [rr_dyn env f st p requirement rest hst]
      obtain ⟨st', hdone, hle⟩ := ih
        (pushDep st p ⟨requirement.path, requirement.static,
          requirement.references, none,
          some "Unable to resolve dynamic dependency"⟩) p
        (by rw [unmarked_pushDep]; exact hcount)
      exact ⟨st', hdone, markedLE_trans (markedLE_pushDep st p _) hle⟩
    · have hst' : requirement.static = true := by
        revert hst
        cases requirement.static <;> simp
      rcases hc : alookup st.dirCache (jsDirname p, requirement.path)
        with _ | cacheResult
      · rcases hr : resolveOf env requirement.path (jsDirname p) with _ | dependent
        · rw [rr_unresolved env f st p requirement rest hst' hc hr]
          obtain ⟨st', hdone, hle⟩ := ih
            (pushDep
              (cacheDirResult st (jsDirname p) requirement.path
                (none, some "Unable to locate dependency")) p
              ⟨requirement.path, requirement.static, requirement.references,
                none, some "Unable to locate dependency"⟩) p
            (by rw [unmarked_pushDep]; exact hcount)
          refine ⟨st', hdone, markedLE_trans ?_ hle⟩
          exact markedLE_pushDep _ p _
        · rw [rr_resolved env f st p requirement rest dependent hst' hc hr]
          have hdep : dependent ∈ env.files := hres _ (alookup_mem _ _ _ hr)
          have hc3 : unmarkedCount env
              (pushDep
                (cacheDirResult (cacheFileRecord st dependent) (jsDirname p)
                  requirement.path (some dependent, none)) p
                ⟨requirement.path, requirement.static, requirement.references,
                  some dependent, none⟩) ≤ f := by
            rw [unmarked_pushDep]
            exact hcount
          obtain ⟨st4, h4, hle4⟩ := han _ dependent hdep hc3
          rw [h4]
          obtain ⟨st', hdone', hle'⟩ := ih st4 p
            (le_trans (unmarked_le_of_markedLE env hle4) hc3)
          refine ⟨st', hdone', ?_⟩
          refine markedLE_trans (markedLE_pushDep _ p _) (markedLE_trans hle4 hle')
      · rw [rr_cacheHit env f st p requirement rest cacheResult hst' hc]
        obtain ⟨st', hdone, hle⟩ := ih
          (pushDep st p ⟨requirement.path, requirement.static,
            requirement.references, cacheResult.1, cacheResult.2⟩) p
          (by rw [unmarked_pushDep]; exact hcount)
        exact ⟨st', hdone, markedLE_trans (markedLE_pushDep st p _) hle⟩

theorem an_exists (env : GEnv) (hres : resolveClosed env) :
    ∀ (f : Nat) (st : GState) (q : String), q ∈ env.files →
      unmarkedCount env st ≤ f →
      ∃ st', Dependencies.analyze env f st ⟨q, true, false⟩ = .done st'
        ∧ markedLE st st' := by
  intro f
  induction f with
  | zero =>
    intro st q hq hc
    rcases hm : alookup st.deps q with _ | l
    · have := unmarked_pos_of_unmarked_mem env st q hq hm
      omega
    · exact ⟨st, an_marked env 0 st ⟨q, true, false⟩ rfl rfl (by simp [hm]),
        markedLE_refl st⟩
  | succ f ihf =>
    intro st q hq hc
    rcases hm : alookup st.deps q with _ | l
    · rw [an_unmarked env f st ⟨q, true, false⟩ rfl rfl (by simp [hm])]
      have hlt := unmarked_lt_markDeps env st q hq hm
      obtain ⟨st', hdone, hle⟩ := rr_of_an env hres f ihf (scanOf env q)
        (markDeps st q) q (by omega)
      exact ⟨st', hdone, markedLE_trans (markedLE_markDeps st q) hle⟩
    · exact ⟨st, an_marked env (f + 1) st ⟨q, true, false⟩ rfl rfl (by simp [hm]),
        markedLE_refl st⟩

theorem prepost_refl (st : GState) : PrePost st st :=
  ⟨markedLE_refl st, fun _ h => h, id, id⟩

theorem prepost_trans {s1 s2 s3 : GState} (h1 : PrePost s1 s2)
    (h2 : PrePost s2 s3) : PrePost s1 s3 :=
  ⟨markedLE_trans h1.1 h2.1, fun q hq => h2.2.1 q (h1.2.1 q hq),
    fun hg => h2.2.2.1 (h1.2.2.1 hg), fun hd => h2.2.2.2 (h1.2.2.2 hd)⟩

theorem prepost_markDeps (st : GState) (p : String) :
    PrePost st (markDeps st p) := by
  refine ⟨markedLE_markDeps st p, fun q hq => hq, ?_, ?_⟩
  · rintro ⟨hnodup, hdeps, hdir⟩
    refine ⟨hnodup, ?_, hdir⟩
    intro q l hl d hd r hr
    rw [alookup_markDeps] at hl
    rcases hq : alookup st.deps q with _ | l0
    · rw [hq] at hl
      by_cases hpq : p = q
      · rw [if_pos hpq] at hl
        replace hl := Option.some.inj hl
        rw [← hl] at hd
        exact absurd hd (List.not_mem_nil d)
      · rw [if_neg hpq] at hl
        exact Option.noConfusion hl
    · rw [hq] at hl
      replace hl := Option.some.inj hl
      rw [← hl] at hd
      exact hdeps q l0 hq d hd r hr
  · intro hdyn q l hl d hd hst
    rw [alookup_markDeps] at hl
    rcases hq : alookup st.deps q with _ | l0
    · rw [hq] at hl
      by_cases hpq : p = q
      · rw [if_pos hpq] at hl
        replace hl := Option.some.inj hl
        rw [← hl] at hd
        exact absurd hd (List.not_mem_nil d)
      · rw [if_neg hpq] at hl
        exact Option.noConfusion hl
    · rw [hq] at hl
      replace hl := Option.some.inj hl
      rw [← hl] at hd
      exact hdyn q l0 hq d hd hst

theorem mem_cacheFileRecord (st : GState) (x q : String)
    (h : x ∈ st.fileCache) : x ∈ (cacheFileRecord st q).fileCache := by
  show x ∈ (if q ∈ st.fileCache then st.fileCache else st.fileCache ++ [q])
  by_cases hq : q ∈ st.fileCache
  · simpa [hq] using h
  · simp only [hq, if_false]
    exact List.mem_append.mpr (Or.inl h)

theorem mem_cacheFileRecord_self (st : GState) (q : String) :
    q ∈ (cacheFileRecord st q).fileCache := by
  show q ∈ (if q ∈ st.fileCache then st.fileCache else st.fileCache ++ [q])
  by_cases hq : q ∈ st.fileCache
  · simpa [hq] using hq
  · simp [hq]

theorem prepost_cacheFile (st : GState) (x : String) :
    PrePost st (cacheFileRecord st x) := by
  refine ⟨fun q hq => hq, fun q hq => mem_cacheFileRecord st q x hq, ?_, fun h => h⟩
  rintro ⟨hnodup, hdeps, hdir⟩
  refine ⟨?_, ?_, ?_⟩
  · show (if x ∈ st.fileCache then st.fileCache else st.fileCache ++ [x]).Nodup
    by_cases hx : x ∈ st.fileCache
    · simpa [hx] using hnodup
    · simp only [hx, if_false]
      simp [List.nodup_append, hnodup, hx]
  · intro q l hl d hd r hr
    exact mem_cacheFileRecord st r x (hdeps q l hl d hd r hr)
  · intro k v hv q hq
    exact mem_cacheFileRecord st q x (hdir k v hv q hq)

theorem prepost_cacheDir (st : GState) (dir p : String)
    (out : Option String × Option String)
    (hv : GInv st → ∀ q, out.1 = some q → q ∈ st.fileCache) :
    PrePost st (cacheDirResult st dir p out) := by
  refine ⟨fun q hq => hq, fun q hq => hq, ?_, fun h => h⟩
  rintro ⟨hnodup, hdeps, hdir⟩
  refine ⟨hnodup, hdeps, ?_⟩
  intro k v hvk q hq
  show q ∈ st.fileCache
  rw [show (cacheDirResult st dir p out).dirCache
      = st.dirCache ++ [((dir, p), out)] from rfl, alookup_append] at hvk
  rcases hk : alookup st.dirCache k with _ | v0
  · rw [hk] at hvk
    simp only [alookup] at hvk
    by_cases hkk : (dir, p) = k
    · rw [if_pos hkk] at hvk
      replace hvk := Option.some.inj hvk
      rw [← hvk] at hq
      exact hv ⟨hnodup, hdeps, hdir⟩ q hq
    · rw [if_neg hkk] at hvk
      exact Option.noConfusion hvk
  · rw [hk] at hvk
    replace hvk := Option.some.inj hvk
    rw [← hvk] at hq
    exact hdir k v0 hk q hq

theorem alookup_pushDep (st : GState) (p : String) (d : DepRecord) (q : String) :
    alookup (pushDep st p d).deps q
      = if q = p then (alookup st.deps q).map (fun l => l ++ [d])
        else alookup st.deps q := by
  show alookup (updAssoc st.deps p (fun l => l ++ [d])) q = _
  rw [updAssoc_alookup]

theorem prepost_pushDep (st : GState) (p : String) (d : DepRecord)
    (hfile : GInv st → ∀ q, d.file = some q → q ∈ st.fileCache)
    (hdyn : d.static = false →
      d.file = none ∧ d.error = some "Unable to resolve dynamic dependency") :
    PrePost st (pushDep st p d) := by
  refine ⟨markedLE_pushDep st p d, fun q hq => hq, ?_, ?_⟩
  · rintro ⟨hnodup, hdeps, hdir⟩
    refine ⟨hnodup, ?_, hdir⟩
    intro q l hl e he r hr
    rw [alookup_pushDep] at hl
    by_cases hqp : q = p
    · rw [if_pos hqp] at hl
      rcases hq : alookup st.deps q with _ | l0
      · rw [hq] at hl
        exact Option.noConfusion hl
      · rw [hq] at hl
        replace hl := Option.some.inj hl
        rw [← hl] at he
        rcases List.mem_append.mp he with h0 | h1
        · exact hdeps q l0 hq e h0 r hr
        · rw [List.mem_singleton.mp h1] at hr
          exact hfile ⟨hnodup, hdeps, hdir⟩ r hr
    · rw [if_neg hqp] at hl
      exact hdeps q l hl e he r hr
  · intro hdo q l hl e he hst
    rw [alookup_pushDep] at hl
    by_cases hqp : q = p
    · rw [if_pos hqp] at hl
      rcases hq : alookup st.deps q with _ | l0
      · rw [hq] at hl
        exact Option.noConfusion hl
      · rw [hq] at hl
        replace hl := Option.some.inj hl
        rw [← hl] at he
        rcases List.mem_append.mp he with h0 | h1
        · exact hdo q l0 hq e h0 hst
        · rw [List.mem_singleton.mp h1] at hst ⊢
          exact hdyn hst
    · rw [if_neg hqp] at hl
      exact hdo q l hl e he hst

theorem rr_prepost_of_an (env : GEnv) (f : Nat)
    (han : ∀ (st : GState) (file : VFile) (st' : GState),
      Dependencies.analyze env f st file = .done st' → PrePost st st') :
    ∀ (reqs : List Requirement) (st : GState) (p : String) (st' : GState),
      Dependencies.resolveRequirements env f st p reqs = .done st' →
      PrePost st st' := by
  intro reqs
  induction reqs with
  | nil =>
    intro st p st' hrun
    rw [rr_nil] at hrun
    replace hrun := ARes.done.inj hrun
    rw [← hrun]
    exact prepost_refl st
  | cons requirement rest ih =>
    intro st p st' hrun
    by_cases hst : requirement.static = false
    · rw [rr_dyn env f st p requirement rest hst] at hrun
      refine prepost_trans (prepost_pushDep st p _ ?_ ?_) (ih _ p st' hrun)
      · intro _ q hq
        exact Option.noConfusion hq
      · intro _
        exact ⟨rfl, rfl⟩
    · have hst' : requirement.static = true := by
        revert hst
        cases requirement.static <;> simp
      rcases hc : alookup st.dirCache (jsDirname p, requirement.path)
        with _ | cacheResult
      · rcases hr : resolveOf env requirement.path (jsDirname p) with _ | dependent
        · rw [rr_unresolved env f st p requirement rest hst' hc hr] at hrun
          refine prepost_trans (prepost_cacheDir st (jsDirname p) requirement.path
            (none, some "Unable to locate dependency") ?_) ?_
          · intro _ q hq
            exact Option.noConfusion hq
          · refine prepost_trans (prepost_pushDep _ p _ ?_ ?_) (ih _ p st' hrun)
            · intro _ q hq
              exact Option.noConfusion hq
            · intro hfalse
              rw [hst'] at hfalse
              exact Bool.noConfusion hfalse
        · rw [rr_resolved env f st p requirement rest dependent hst' hc hr] at hrun
          rcases ha : Dependencies.analyze env f
              (pushDep
                (cacheDirResult (cacheFileRecord st dependent) (jsDirname p)
                  requirement.path (some dependent, none)) p
                ⟨requirement.path, requirement.static, requirement.references,
                  some dependent, none⟩)
              ⟨dependent, true, false⟩ with _ | _ | st4
          · rw [ha] at hrun
            exact ARes.noConfusion hrun
          · rw [ha] at hrun
            exact ARes.noConfusion hrun
          · rw [ha] at hrun
            have hp1 : PrePost st (cacheFileRecord st dependent) :=
              prepost_cacheFile st dependent
            have hp2 : PrePost (cacheFileRecord st dependent)
                (cacheDirResult (cacheFileRecord st dependent) (jsDirname p)
                  requirement.path (some dependent, none)) := by
              refine prepost_cacheDir _ _ _ _ ?_
              intro _ q hq
              replace hq := Option.some.inj hq
              rw [← hq]
              exact mem_cacheFileRecord_self st dependent
            have hp3 : PrePost
                (cacheDirResult (cacheFileRecord st dependent) (jsDirname p)
                  requirement.path (some dependent, none))
                (pushDep
                  (cacheDirResult (cacheFileRecord st dependent) (jsDirname p)
                    requirement.path (some dependent, none)) p
                  ⟨requirement.path, requirement.static, requirement.references,
                    some dependent, none⟩) := by
              refine prepost_pushDep _ p _ ?_ ?_
              · intro _ q hq
                replace hq := Option.some.inj hq
                rw [← hq]
                exact mem_cacheFileRecord_self st dependent
              · intro hfalse
                rw [hst'] at hfalse
                exact Bool.noConfusion hfalse
            have hp4 := han _ _ _ ha
            have hp5 := ih st4 p st' hrun
            exact prepost_trans hp1 (prepost_trans hp2
              (prepost_trans hp3 (prepost_trans hp4 hp5)))
      · rw [rr_cacheHit env f st p requirement rest cacheResult hst' hc] at hrun
        refine prepost_trans (prepost_pushDep st p _ ?_ ?_) (ih _ p st' hrun)
        · rintro ⟨hnodup, hdeps, hdir⟩ q hq
          exact hdir (jsDirname p, requirement.path) cacheResult hc q hq
        · intro hfalse
          rw [hst'] at hfalse
          exact Bool.noConfusion hfalse

theorem an_prepost (env : GEnv) :
    ∀ (f : Nat) (st : GState) (file : VFile) (st' : GState),
      Dependencies.analyze env f st file = .done st' → PrePost st st' := by
  intro f
  induction f with
  | zero =>
    intro st file st' hrun
    by_cases hg : file.isVinylRec = false ∨ file.nullContents = true
    · rw [an_noCb env 0 st file hg] at hrun
      exact ARes.noConfusion hrun
    · have hv : file.isVinylRec = true := by
        revert hg
        cases file.isVinylRec <;> simp
      have hn : file.nullContents = false := by
        revert hg
        cases file.nullContents <;> simp
      rcases hm : alookup st.deps file.path with _ | l
      · rw [an_zero_unmarked env st file hv hn (by simp [hm])] at hrun
        exact ARes.noConfusion hrun
      · rw [an_marked env 0 st file hv hn (by simp [hm])] at hrun
        replace hrun := ARes.done.inj hrun
        rw [← hrun]
        exact prepost_refl st
  | succ f ihf =>
    intro st file st' hrun
    by_cases hg : file.isVinylRec = false ∨ file.nullContents = true
    · rw [an_noCb env (f + 1) st file hg] at hrun
      exact ARes.noConfusion hrun
    · have hv : file.isVinylRec = true := by
        revert hg
        cases file.isVinylRec <;> simp
      have hn : file.nullContents = false := by
        revert hg
        cases file.nullContents <;> simp
      rcases hm : alookup st.deps file.path with _ | l
      · rw [an_unmarked env f st file hv hn (by simp [hm])] at hrun
        exact prepost_trans (prepost_markDeps st file.path)
          (rr_prepost_of_an env f ihf _ _ _ _ hrun)
      · rw [an_marked env (f + 1) st file hv hn (by simp [hm])] at hrun
        replace hrun := ARes.done.inj hrun
        rw [← hrun]
        exact prepost_refl st

theorem an_done_vinyl (env : GEnv) (fuel : Nat) (st : GState) (file : VFile)
    (st' : GState) (h : Dependencies.analyze env fuel st file = .done st') :
    file.isVinylRec = true ∧ file.nullContents = false := by
  by_cases hg : file.isVinylRec = false ∨ file.nullContents = true
  · rw [an_noCb env fuel st file hg] at h
    exact ARes.noConfusion h
  · constructor
    · revert hg
      cases file.isVinylRec <;> simp
    · revert hg
      cases file.nullContents <;> simp

theorem an_done_marked (env : GEnv) (fuel : Nat) (st : GState) (file : VFile)
    (st' : GState) (h : Dependencies.analyze env fuel st file = .done st') :
    (alookup st'.deps file.path).isSome := by
  obtain ⟨hv, hn⟩ := an_done_vinyl env fuel st file st' h
  rcases hm : alookup st.deps file.path with _ | l
  · cases fuel with
    | zero =>
      rw [an_zero_unmarked env st file hv hn (by simp [hm])] at h
      exact ARes.noConfusion h
    | succ f =>
      rw [an_unmarked env f st file hv hn (by simp [hm])] at h
      have hpp := rr_prepost_of_an env f (an_prepost env f) _ _ _ _ h
      exact hpp.1 file.path (marked_markDeps_self st file.path)
  · rw [an_marked env fuel st file hv hn (by simp [hm])] at h
    replace h := ARes.done.inj h
    rw [← h]
    simp [hm]

/-! ## Grapher theorems -/

/-- C1: on any finite filesystem whose resolver outcomes stay inside
it, `analyze` of a root file completes with enough recursion budget —
in particular on inputs with static import cycles, where a re-entered
file's already-assigned dependency list short-circuits the walk; the
final state keeps the path-keyed file cache duplicate-free (each file
appears exactly once) with every resolved Dependency Record pointing
into it (the back-edge of a cycle points at the possibly partially
populated record), and re-entering the root completes immediately even
with zero recursion budget. -/
theorem C1_cycle_termination (env : GEnv) (st : GState) (root : String)
    (fuel : Nat) (hres : resolveClosed env) (hroot : root ∈ env.files)
    (hinv : GInv st) (hfuel : unmarkedCount env st ≤ fuel) :
    ∃ st', Dependencies.analyze env fuel st ⟨root, true, false⟩ = .done st'
      ∧ st'.fileCache.Nodup ∧ DepsInCache st'
      ∧ ∀ fuel', Dependencies.analyze env fuel' st' ⟨root, true, false⟩
          = .done st' := by
  obtain ⟨st', hdone, _⟩ := an_exists env hres fuel st root hroot hfuel
  have hpp := an_prepost env fuel st _ st' hdone
  have hinv' := hpp.2.2.1 hinv
  refine ⟨st', hdone, hinv'.1, hinv'.2.1, ?_⟩
  intro fuel'
  exact an_marked env fuel' st' _ rfl rfl
    (an_done_marked env fuel st _ st' hdone)

/-- C1 witness: the two-file cycle `/a/x.js ↔ /a/y.js`. -/
theorem C1_witness :
    ∃ st', Dependencies.analyze
        ⟨["/a/x.js", "/a/y.js"],
         [("/a/x.js", [⟨"./y", true, [⟨"require('./y')", 0, 14⟩]⟩]),
          ("/a/y.js", [⟨"./x", true, [⟨"require('./x')", 0, 14⟩]⟩])],
         [(("./y", "/a"), "/a/y.js"), (("./x", "/a"), "/a/x.js")]⟩
        2 ⟨[], [], []⟩ ⟨"/a/x.js", true, false⟩ = .done st'
      ∧ st'.fileCache.Nodup ∧ DepsInCache st'
      ∧ ∀ fuel', Dependencies.analyze
          ⟨["/a/x.js", "/a/y.js"],
           [("/a/x.js", [⟨"./y", true, [⟨"require('./y')", 0, 14⟩]⟩]),
            ("/a/y.js", [⟨"./x", true, [⟨"require('./x')", 0, 14⟩]⟩])],
           [(("./y", "/a"), "/a/y.js"), (("./x", "/a"), "/a/x.js")]⟩
          fuel' st' ⟨"/a/x.js", true, false⟩ = .done st' :=
  C1_cycle_termination _ ⟨[], [], []⟩ "/a/x.js" 2 (by unfold resolveClosed; decide)
    (by decide)
    ⟨List.nodup_nil, fun p l hl => Option.noConfusion hl,
      fun k v hv => Option.noConfusion hv⟩
    (by decide)

/-- C5 (amended): a dynamic requirement is recorded with `file` absent
and `error` exactly `'Unable to resolve dynamic dependency'` (not
`"unresolvable dynamic import"`), and the walk continues with the
remaining descriptors; moreover every completed walk preserves the
invariant that all dynamic Dependency Records carry exactly that
shape. -/
theorem C5_dynamic_dependency (env : GEnv) (fuel : Nat) (st : GState) (p : String)
    (requirement : Requirement) (rest : List Requirement) (st' : GState)
    (h : requirement.static = false) :
    (Dependencies.resolveRequirements env fuel st p (requirement :: rest)
      = Dependencies.resolveRequirements env fuel
          (pushDep st p ⟨requirement.path, requirement.static,
            requirement.references, none,
            some "Unable to resolve dynamic dependency"⟩) p rest)
    ∧ (DynInv st →
        Dependencies.resolveRequirements env fuel st p (requirement :: rest)
          = .done st' → DynInv st') := by
  refine ⟨rr_dyn env fuel st p requirement rest h, ?_⟩
  intro hdyn hrun
  exact (rr_prepost_of_an env fuel (an_prepost env fuel) _ st p st' hrun).2.2.2 hdyn

/-- C5 counterexample: resolving one dynamic requirement records
`file: null` with the code's actual error string, which is not the
claimed `"unresolvable dynamic import"`. -/
theorem C5_counterexample :
    Dependencies.resolveRequirements ⟨[], [], []⟩ 0 ⟨[("/a/main.js", [])], [], []⟩
        "/a/main.js" [⟨"name", false, [⟨"require(name)", 0, 13⟩]⟩]
      = .done ⟨[("/a/main.js",
          [⟨"name", false, [⟨"require(name)", 0, 13⟩], none,
            some "Unable to resolve dynamic dependency"⟩])], [], []⟩
    ∧ "Unable to resolve dynamic dependency" ≠ "unresolvable dynamic import" := by
  constructor
  · rw [rr_dyn _ 0 _ _ _ _ rfl, rr_nil]
    decide
  · decide

/-- C5 witness: the dynamic-record equation applied at a concrete
requirement list. -/
theorem C5_witness :
    Dependencies.resolveRequirements ⟨[], [], []⟩ 3 ⟨[("/m.js", [])], [], []⟩
        "/m.js" [⟨"x + y", false, []⟩, ⟨"./z", true, []⟩]
      = Dependencies.resolveRequirements ⟨[], [], []⟩ 3
          (pushDep ⟨[("/m.js", [])], [], []⟩ "/m.js"
            ⟨"x + y", false, [], none,
              some "Unable to resolve dynamic dependency"⟩)
          "/m.js" [⟨"./z", true, []⟩] :=
  (C5_dynamic_dependency ⟨[], [], []⟩ 3 ⟨[("/m.js", [])], [], []⟩ "/m.js"
    ⟨"x + y", false, []⟩ [⟨"./z", true, []⟩] ⟨[], [], []⟩ rfl).1

/-- C9: `analyze` is idempotent — a completed run leaves the file's
dependency list assigned, so any subsequent `analyze` of the same file
returns the *same* state immediately (even with zero recursion
budget, hence without re-scanning), preserving dependency-list length,
element order, and File Record identities. -/
theorem C9_analyze_idempotent (env : GEnv) (fuel : Nat) (st st' : GState)
    (file : VFile) (h : Dependencies.analyze env fuel st file = .done st') :
    ∀ fuel', Dependencies.analyze env fuel' st' file = .done st' := by
  obtain ⟨hv, hn⟩ := an_done_vinyl env fuel st file st' h
  intro fuel'
  exact an_marked env fuel' st' file hv hn (an_done_marked env fuel st file st' h)

/-- C9 witness: after analyzing `/a/main.js` (no requirements), a
re-run with zero budget returns the identical state. -/
theorem C9_witness :
    Dependencies.analyze ⟨["/a/main.js"], [("/a/main.js", [])], []⟩ 0
        ⟨[("/a/main.js", [])], [], []⟩ ⟨"/a/main.js", true, false⟩
      = .done ⟨[("/a/main.js", [])], [], []⟩ := by
  have hrun : Dependencies.analyze ⟨["/a/main.js"], [("/a/main.js", [])], []⟩ 1
      ⟨[], [], []⟩ ⟨"/a/main.js", true, false⟩
      = .done ⟨[("/a/main.js", [])], [], []⟩ := by
    rw [an_unmarked _ 0 _ _ rfl rfl (by simp [alookup])]
    exact rr_nil _ 0 _ _
  exact C9_analyze_idempotent _ 1 _ _ _ hrun 0

/-- C10 (amended): for a genuine Vinyl file with non-null contents (on
a closed finite filesystem, with enough recursion budget) `analyze`
produces exactly one terminal event — the completion callback fires
once; but for a file that is not a Vinyl record or has null contents,
`analyze` returns without invoking the callback at all, contrary to the
claim's "never invoked zero times". -/
theorem C10_terminal_event (env : GEnv) (fuel : Nat) (st : GState) (file : VFile) :
    ((file.isVinylRec = false ∨ file.nullContents = true) →
      Dependencies.analyze env fuel st file = .noCb)
    ∧ (file.isVinylRec = true → file.nullContents = false →
        resolveClosed env → file.path ∈ env.files →
        unmarkedCount env st ≤ fuel →
        ∃ st', Dependencies.analyze env fuel st file = .done st') := by
  constructor
  · exact an_noCb env fuel st file
  · intro hv hn hres hmem hc
    cases file with
    | mk path vin nul =>
      subst hv
      subst hn
      obtain ⟨st', hdone, _⟩ := an_exists env hres fuel st path hmem hc
      exact ⟨st', hdone⟩

/-- C10 counterexample: a non-Vinyl input makes `analyze` return
without invoking the completion callback — zero terminal events, where
the claim demands exactly one. -/
theorem C10_counterexample :
    Dependencies.analyze ⟨[], [], []⟩ 5 ⟨[], [], []⟩ ⟨"/a/main.js", false, false⟩
      = .noCb :=
  an_noCb ⟨[], [], []⟩ 5 ⟨[], [], []⟩ ⟨"/a/main.js", false, false⟩ (Or.inl rfl)

/-- C10 witness: both halves applied — a null-contents file yields no
callback; a proper Vinyl file with no requirements completes. -/
theorem C10_witness :
    Dependencies.analyze ⟨[], [], []⟩ 3 ⟨[], [], []⟩ ⟨"/x.js", true, true⟩ = .noCb
    ∧ ∃ st', Dependencies.analyze ⟨["/x.js"], [], []⟩ 1 ⟨[], [], []⟩
        ⟨"/x.js", true, false⟩ = .done st' :=
  ⟨(C10_terminal_event ⟨[], [], []⟩ 3 ⟨[], [], []⟩ ⟨"/x.js", true, true⟩).1
      (Or.inr rfl),
   (C10_terminal_event ⟨["/x.js"], [], []⟩ 1 ⟨[], [], []⟩ ⟨"/x.js", true, false⟩).2
      rfl rfl (fun e he => absurd he (List.not_mem_nil e)) (by decide) (by decide)⟩
